import Mathlib

/-!
Verification of the minifilepath path validation, canonicalization and
reserved-name matching engine.

The Rust sources are shallowly embedded: strings become `List Char` (the
crate operates on valid UTF-8 only; byte lengths are recovered through
`utf8Size`), fallible constructors return `Except FilePathError`, and the
platform path splitting of `std::path::Path::components` (Windows flavour,
which is what the crate's test-suite exercises: both `/` and `\` are
separators) is modelled by `pathComponents`.
-/

deriving instance DecidableEq for Except

namespace Minifilepath

/-- Maximum file path component length in bytes (`u8::MAX`), from lib.rs. -/
def MAX_COMPONENT_LEN : Nat := 255

/-- Maximum total file path length in bytes (`u16::MAX`), from lib.rs. -/
def MAX_PATH_LEN : Nat := 65535

/-- Claimed maximum number of components a file path may have, from lib.rs. -/
def MAX_NUM_COMPONENTS : Nat := MAX_PATH_LEN / 2

/-- Size in bytes of the UTF-8 encoding of a scalar value. -/
def utf8Size (c : Char) : Nat :=
  if c.toNat < 0x80 then 1
  else if c.toNat < 0x800 then 2
  else if c.toNat < 0x10000 then 3
  else 4

/-- Byte length of a string (`str::len` in Rust operates on UTF-8 bytes). -/
def byteLen (s : List Char) : Nat := (s.map utf8Size).sum

/-- Rust `char::is_ascii`. -/
def isAsciiChar (c : Char) : Bool := c.toNat ≤ 0x7F

/-- Rust `char::to_ascii_lowercase`. -/
def toAsciiLower (c : Char) : Char :=
  if 0x41 ≤ c.toNat ∧ c.toNat ≤ 0x5A then Char.ofNat (c.toNat + 0x20) else c

/-- Rust `char::is_ascii_control` (0x00–0x1F and 0x7F). -/
def isAsciiControl (c : Char) : Bool := c.toNat ≤ 0x1F || c.toNat = 0x7F

/-- The Unicode White_Space property, as used by Rust `str::trim_start` /
`str::trim_end` (via `char::is_whitespace`). -/
def rustIsWhitespace (c : Char) : Bool :=
  (0x09 ≤ c.toNat && c.toNat ≤ 0x0D) || c.toNat = 0x20 || c.toNat = 0x85 ||
  c.toNat = 0xA0 || c.toNat = 0x1680 ||
  (0x2000 ≤ c.toNat && c.toNat ≤ 0x200A) || c.toNat = 0x2028 || c.toNat = 0x2029 ||
  c.toNat = 0x202F || c.toNat = 0x205F || c.toNat = 0x3000

/-- Rust `str::trim_start`. -/
def trimStart (s : List Char) : List Char := s.dropWhile rustIsWhitespace

/-- Rust `str::trim_end`. -/
def trimEnd (s : List Char) : List Char := (s.reverse.dropWhile rustIsWhitespace).reverse

/-! ## The reserved-name automaton of util.rs (`split_at_reserved_name`) -/

/-- Result of feeding one character to a match-in-progress; `Accepted` carries
the updated state (the Rust original mutates in place). -/
inductive AcceptResult (σ : Type) where
  | NoMatch
  | Accepted (next : σ)
  | AcceptedAndFinished (startOffset endOffset : Nat)
deriving DecidableEq, Repr

def AcceptResult.mapState {σ τ : Type} (f : σ → τ) : AcceptResult σ → AcceptResult τ
  | .NoMatch => .NoMatch
  | .Accepted s => .Accepted (f s)
  | .AcceptedAndFinished a b => .AcceptedAndFinished a b

inductive AUX where
  | A
  | U
deriving DecidableEq, Repr

def AUX.accept : AUX → Char → AcceptResult AUX
  | .A, c => if c = 'u' then .Accepted .U else .NoMatch
  | .U, c => if c = 'x' then .AcceptedAndFinished 2 0 else .NoMatch

inductive NUL where
  | N
  | U
deriving DecidableEq, Repr

def NUL.accept : NUL → Char → AcceptResult NUL
  | .N, c => if c = 'u' then .Accepted .U else .NoMatch
  | .U, c => if c = 'l' then .AcceptedAndFinished 2 0 else .NoMatch

inductive PRN where
  | P
  | R
deriving DecidableEq, Repr

def PRN.accept : PRN → Char → AcceptResult PRN
  | .P, c => if c = 'r' then .Accepted .R else .NoMatch
  | .R, c => if c = 'n' then .AcceptedAndFinished 2 0 else .NoMatch

inductive CONOrMOrINOrOUT where
  | C
  | O
  | M
  | N
  | NI
  | NIN
  | NO
  | NOU
  | NOUT
deriving DecidableEq, Repr

def CONOrMOrINOrOUT.accept : CONOrMOrINOrOUT → Char → AcceptResult CONOrMOrINOrOUT
  | .C, c => if c = 'o' then .Accepted .O else .NoMatch
  | .O, c => if c = 'n' then .Accepted .N else if c = 'm' then .Accepted .M else .NoMatch
  | .N, c =>
      if c = 'i' then .Accepted .NI
      else if c = 'o' then .Accepted .NO
      else .AcceptedAndFinished 3 1
  | .M, c => if '1' ≤ c ∧ c ≤ '9' then .AcceptedAndFinished 3 0 else .NoMatch
  | .NI, c => if c = 'n' then .Accepted .NIN else .NoMatch
  | .NIN, c => if c = '$' then .AcceptedAndFinished 5 0 else .NoMatch
  | .NO, c => if c = 'u' then .Accepted .NOU else .NoMatch
  | .NOU, c => if c = 't' then .Accepted .NOUT else .NoMatch
  | .NOUT, c => if c = '$' then .AcceptedAndFinished 6 0 else .NoMatch

inductive LPT where
  | L
  | P
  | T
deriving DecidableEq, Repr

def LPT.accept : LPT → Char → AcceptResult LPT
  | .L, c => if c = 'p' then .Accepted .P else .NoMatch
  | .P, c => if c = 't' then .Accepted .T else .NoMatch
  | .T, c => if '1' ≤ c ∧ c ≤ '9' then .AcceptedAndFinished 3 0 else .NoMatch

inductive ReservedName where
  | AUX (s : AUX)
  | NUL (s : NUL)
  | PRN (s : PRN)
  | CONOrMOrINOrOUT (s : CONOrMOrINOrOUT)
  | LPT (s : LPT)
deriving DecidableEq, Repr

def ReservedName.accept : ReservedName → Char → AcceptResult ReservedName
  | .AUX s, c => (s.accept c).mapState .AUX
  | .NUL s, c => (s.accept c).mapState .NUL
  | .PRN s, c => (s.accept c).mapState .PRN
  | .CONOrMOrINOrOUT s, c => (s.accept c).mapState .CONOrMOrINOrOUT
  | .LPT s, c => (s.accept c).mapState .LPT

/-- Called when no match was found after having processed all characters;
handles the `CON` case (retroactively reporting a tentative `CON` match). -/
def ReservedName.finish : ReservedName → Option (Nat × Nat)
  | .CONOrMOrINOrOUT .N => some (2, 0)
  | _ => none

/-- The `restart` closure: evaluate the current character as a possible new
match start. -/
def restart (c : Char) : Option ReservedName :=
  if c = 'a' then some (.AUX .A)
  else if c = 'n' then some (.NUL .N)
  else if c = 'p' then some (.PRN .P)
  else if c = 'c' then some (.CONOrMOrINOrOUT .C)
  else if c = 'l' then some (.LPT .L)
  else none

/-- The `split_at_reserved_name_impl` closure: split the component around the
match that ends `endOffset` back and starts `startOffset` back from `idx`.
Indices count characters; they coincide with the Rust byte indices because
every character of a match (and the one position used for `endOffset`) is
ASCII. -/
def splitImpl (component : List Char) (idx startOffset endOffset : Nat) :
    List Char × List Char :=
  (component.take (idx - startOffset), component.drop (idx - endOffset + 1))

/-- The scanning loop of `split_at_reserved_name`: `rest` is the unprocessed
suffix of `component` starting at character index `idx`. -/
def saGo (component : List Char) :
    List Char → Nat → Option ReservedName → Option (List Char × List Char)
  | [], idx, st =>
      (st.bind ReservedName.finish).map fun p => splitImpl component (idx - 1) p.1 p.2
  | c :: rest, idx, st =>
      if isAsciiChar c then
        match st with
        | some s =>
          match s.accept (toAsciiLower c) with
          | .NoMatch => saGo component rest (idx + 1) (restart (toAsciiLower c))
          | .Accepted s2 => saGo component rest (idx + 1) (some s2)
          | .AcceptedAndFinished so eo => some (splitImpl component idx so eo)
        | none => saGo component rest (idx + 1) (restart (toAsciiLower c))
      else saGo component rest (idx + 1) none

/-- util.rs `split_at_reserved_name`: like `str::split_once`, but splits
(case-insensitively) on one of the Windows reserved file names. -/
def split_at_reserved_name (component : List Char) : Option (List Char × List Char) :=
  saGo component component 0 none

/-! ## Path components and errors -/

/-- The five `std::path::Component` shapes seen by `iterate_path` (the payload
of a prefix component is never inspected by the crate). -/
inductive PathComp where
  | pfx
  | rootDir
  | curDir
  | parentDir
  | normal (s : List Char)
deriving DecidableEq, Repr

/-- error.rs `FilePathError`. Location contexts (`PathBuf`s built from the
already-seen components) are modelled as the lists of those components. -/
inductive FilePathError where
  | PrefixedPath
  | RootDirectory
  | CurrentDirectory (ctx : List PathComp)
  | ParentDirectory (ctx : List PathComp)
  | EmptyComponent (ctx : List PathComp)
  | ComponentTooLong (ctx : List PathComp) (len : Nat)
  | InvalidCharacter (ctx : List PathComp) (c : Char)
  | ComponentEndsWithAPeriod (ctx : List PathComp)
  | ComponentEndsWithASpace (ctx : List PathComp)
  | ReservedName (ctx : List PathComp)
  | InvalidUTF8 (ctx : List PathComp)
  | EmptyPath
  | PathTooLong (len : Nat)
deriving DecidableEq, Repr

/-- The forbidden character list of `validate_normal_path_component`. -/
def invalid_characters : List Char := ['\\', '/', ':', '*', '?', '"', '<', '>', '|']

/-- The character predicate of the `InvalidCharacter` scan. -/
def isInvalidChar (c : Char) : Bool := isAsciiControl c || invalid_characters.contains c

/-- The reserved-name rejection condition applied to the split returned by
`split_at_reserved_name`. -/
def reservedHit (component : List Char) : Bool :=
  match split_at_reserved_name component with
  | some (l, r) =>
      trimEnd l = [] && (trimStart r = [] || (trimStart r).head? = some '.')
  | none => false

/-- util.rs `validate_normal_path_component` (the lazily-built `PathBuf`
location context becomes the explicit `ctx` argument). -/
def validate_normal_path_component (component : List Char) (ctx : List PathComp) :
    Except FilePathError Unit :=
  let len := byteLen component
  if len > MAX_COMPONENT_LEN then .error (.ComponentTooLong ctx len)
  else if component.getLast? = some '.' then .error (.ComponentEndsWithAPeriod ctx)
  else if component.getLast? = some ' ' then .error (.ComponentEndsWithASpace ctx)
  else
    match component.find? isInvalidChar with
    | some c => .error (.InvalidCharacter ctx c)
    | none => if reservedHit component then .error (.ReservedName ctx) else .ok ()

/-! ## Native path splitting (std::path::Path::components, Windows flavour) -/

/-- Path separators recognized by the Windows implementation of std::path. -/
def isSep (c : Char) : Bool := c = '/' || c = '\\'

/-- Split a character list at every separator (the separators are dropped;
adjacent separators produce empty pieces). -/
def splitOnPred (p : Char → Bool) : List Char → List (List Char)
  | [] => [[]]
  | c :: rest =>
    if p c then [] :: splitOnPred p rest
    else
      match splitOnPred p rest with
      | [] => [[c]]
      | piece :: pieces => (c :: piece) :: pieces

def splitSep (s : List Char) : List (List Char) := splitOnPred isSep s

/-- Classification of one separator-delimited piece, mirroring the
normalization performed by `std::path::Components`: empty pieces (from
repeated separators) disappear, `.` is a current-directory component only at
the very start of the path and disappears elsewhere, `..` is a
parent-directory component, everything else is a normal component. -/
def classifyPiece (piece : List Char) (first : Bool) : Option PathComp :=
  if piece = [] then none
  else if piece = ['.'] then (if first then some .curDir else none)
  else if piece = ['.', '.'] then some .parentDir
  else some (.normal piece)

def parseBody : List (List Char) → Bool → List PathComp
  | [], _ => []
  | piece :: rest, first =>
    match classifyPiece piece first with
    | some comp => comp :: parseBody rest false
    | none => parseBody rest false

/-- Whether the path starts with a Windows path root marker: a drive letter
(`C:`) or a UNC / verbatim marker (two leading separators). Modelled from
std::path's Windows prefix parsing; the crate rejects any prefixed path
before looking further into it, so only the presence test is relevant. -/
def hasWinDrive : List Char → Bool
  | a :: b :: _ => (a.isAlpha && b = ':') || (isSep a && isSep b)
  | _ => false

/-- std::path::Path::components (Windows flavour) as a list. A prefixed path
is collapsed to its leading prefix component: `iterate_path` fails at that
first component without observing the rest. -/
def pathComponents (s : List Char) : List PathComp :=
  if hasWinDrive s then [.pfx]
  else
    match s with
    | [] => []
    | c :: rest =>
      if isSep c then .rootDir :: parseBody (splitSep rest) false
      else parseBody (splitSep (c :: rest)) true

/-! ## util.rs `iterate_path` -/

/-- The loop body of `iterate_path`: walk the components, validating the
normal ones and accumulating the canonical path length. `seen` is the list of
already-processed components (the take-prefix used for error contexts), and
the returned value is the final canonical length. The `InvalidUTF8` arm of
the Rust original cannot fire in the model, where strings are sequences of
Unicode scalar values by construction. -/
def iterLoop : List PathComp → List PathComp → Nat → Except FilePathError Nat
  | [], _seen, pathLen => .ok pathLen
  | comp :: rest, seen, pathLen =>
    match comp with
    | .normal c =>
      if c = [] then .error (.EmptyComponent seen)
      else
        match validate_normal_path_component c (seen ++ [comp]) with
        | .error e => .error e
        | .ok _ =>
          iterLoop rest (seen ++ [comp]) ((if pathLen ≠ 0 then pathLen + 1 else pathLen) + byteLen c)
    | .pfx => .error .PrefixedPath
    | .curDir => .error (.CurrentDirectory seen)
    | .parentDir => .error (.ParentDirectory seen)
    | .rootDir => .error .RootDirectory

/-- util.rs `iterate_path`: returns `true` if the path is not empty. -/
def iterate_path (s : List Char) : Except FilePathError Bool :=
  match iterLoop (pathComponents s) [] 0 with
  | .error e => .error e
  | .ok n => if n > MAX_PATH_LEN then .error (.PathTooLong n) else .ok (decide (n > 0))

/-! ## FilePath / FilePathBuf constructors and views -/

/-- path.rs `FilePath::new` (via `validate_filepath`): the borrowed value is
the validated input string itself. -/
def FilePath.new (s : List Char) : Except FilePathError (List Char) :=
  match iterate_path s with
  | .error e => .error e
  | .ok b => if b then .ok s else .error .EmptyPath

/-- iter.rs `FilePathIter` (`FilePath::components`): the normal components
yielded by std path splitting. On valid `FilePath`s every component is
normal, so projecting the normal payloads loses nothing. -/
def pathNormalComponents (s : List Char) : List (List Char) :=
  (pathComponents s).filterMap fun comp =>
    match comp with
    | .normal c => some c
    | _ => none

/-- builder.rs `append_path_component_to_string`. -/
def append_path_component_to_string (component s : List Char) : List Char :=
  (if s ≠ [] then s ++ ['/'] else s) ++ component

/-- The loop of builder.rs `append_file_path_to_string`, including its final
length check. -/
def appendLoop : List (List Char) → Nat → List Char → Except FilePathError (List Char)
  | [], pathLen, s =>
      if pathLen > MAX_PATH_LEN then .error (.PathTooLong pathLen) else .ok s
  | c :: rest, pathLen, s =>
      let pathLen2 := (if pathLen ≠ 0 then pathLen + 1 else pathLen) + byteLen c
      appendLoop rest pathLen2
        (if pathLen2 ≤ MAX_PATH_LEN then append_path_component_to_string c s else s)

/-- builder.rs `append_file_path_to_string` (`path` has been validated by
`FilePath::new` before this is reached). -/
def append_file_path_to_string (path s : List Char) : Except FilePathError (List Char) :=
  appendLoop (pathNormalComponents path) (byteLen s) s

/-- pathbuf.rs `FilePathBuf::new`: an empty builder, one `push` (which is
`FilePath::new` followed by `append_file_path_to_string`), then `build`
(`None` on an empty buffer becomes `EmptyPath`). -/
def FilePathBuf.new (s : List Char) : Except FilePathError (List Char) :=
  match FilePath.new s with
  | .error e => .error e
  | .ok p =>
    match append_file_path_to_string p [] with
    | .error e => .error e
    | .ok out => if out = [] then .error .EmptyPath else .ok out

/-- path.rs `ToOwned for FilePath`: re-walk the components and re-join them
with single canonical separators. -/
def FilePath.to_owned (s : List Char) : List Char :=
  (pathNormalComponents s).foldl (fun acc c => append_path_component_to_string c acc) []

/-- path.rs `PartialEq for FilePath`: componentwise equality, comparing
leaf-to-root like `std::path::Path`. -/
def FilePath.beq (a b : List Char) : Bool :=
  (pathNormalComponents a).reverse == (pathNormalComponents b).reverse

/-- path.rs `Hash for FilePath` writes each component's bytes to the hasher
in root-to-leaf order; the hash value is therefore a function of this
sequence of chunks. -/
def FilePath.hashWrites (s : List Char) : List (List Char) := pathNormalComponents s

/-- iter.rs `pop_path_component_front`: `str::split_once` on the first
canonical separator. -/
def splitOnceSlash : List Char → Option (List Char × List Char)
  | [] => none
  | c :: rest =>
    if c = '/' then some ([], rest)
    else
      match splitOnceSlash rest with
      | some (a, b) => some (c :: a, b)
      | none => none

theorem splitOnceSlash_length {s a b : List Char} (h : splitOnceSlash s = some (a, b)) :
    b.length < s.length := by
  induction s generalizing a b with
  | nil => simp [splitOnceSlash] at h
  | cons c rest ih =>
    by_cases hc : c = '/'
    · simp only [splitOnceSlash, if_pos hc, Option.some.injEq, Prod.mk.injEq] at h
      obtain ⟨-, h2⟩ := h
      subst h2
      simp
    · simp only [splitOnceSlash, if_neg hc] at h
      cases hr : splitOnceSlash rest with
      | none => rw [hr] at h; simp at h
      | some p =>
        rw [hr] at h
        obtain ⟨x, y⟩ := p
        simp only [Option.some.injEq, Prod.mk.injEq] at h
        obtain ⟨-, h2⟩ := h
        subst h2
        have := ih hr
        simp only [List.length_cons]
        omega

/-- The recursion of iter.rs `FilePathBufIter`, with an explicit structural
fuel (any fuel at least the string length gives the iterator's behaviour,
since every pop consumes at least one character). -/
def bufIterGo : Nat → List Char → List (List Char)
  | 0, s => [s]
  | fuel + 1, s =>
    match splitOnceSlash s with
    | some p => p.1 :: (if p.2 = [] then [] else bufIterGo fuel p.2)
    | none => [s]

/-- iter.rs `FilePathBufIter` (`FilePathBuf::components`): the lightweight
iterator over a canonical path string, repeatedly popping the front component
at the first separator and stopping when the remainder is empty. -/
def bufIterComponents (s : List Char) : List (List Char) := bufIterGo s.length s

/-- lib.rs `file_stem_and_extension` uses `rsplitn(2, '.')`, i.e. a split at
the last `.`: this returns the parts before and after the last dot. -/
def rsplitOnceDot : List Char → Option (List Char × List Char)
  | [] => none
  | c :: rest =>
    match rsplitOnceDot rest with
    | some (a, b) => some (c :: a, b)
    | none => if c = '.' then some ([], rest) else none

/-- lib.rs `file_stem_and_extension`: the result pair is (file_stem,
extension); `none` when there is no `.` or when the text after the last `.`
is empty. -/
def file_stem_and_extension (c : List Char) : Option (Option (List Char) × List Char) :=
  match rsplitOnceDot c with
  | none => none
  | some (stem, ext) =>
    if ext = [] then none
    else some ((if stem = [] then none else some stem), ext)

/-! ## Canonical joins and lengths (specification-side helpers) -/

/-- Join components with single `/` separators (the canonical string form). -/
def joinSep : List (List Char) → List Char
  | [] => []
  | [c] => c
  | c :: c2 :: rest => c ++ '/' :: joinSep (c2 :: rest)

/-- One step of the canonical length accumulation performed by `iterate_path`
and `append_file_path_to_string`. -/
def canonAdd (n : Nat) (c : List Char) : Nat :=
  (if n ≠ 0 then n + 1 else n) + byteLen c

def canonFold (n : Nat) (cs : List (List Char)) : Nat := cs.foldl canonAdd n

/-- Canonical encoded length of a component sequence: the sum of the
component byte lengths plus one separator byte between adjacent components. -/
def canonLen (cs : List (List Char)) : Nat := canonFold 0 cs

/-! ## The naive reference reserved-name search -/

def digitChars : List Char := ['1', '2', '3', '4', '5', '6', '7', '8', '9']

/-- The reserved file names recognized by util.rs (note: `COM0` / `LPT0` are
not among them). -/
def reservedNamesList : List (List Char) :=
  [('a' :: "ux".toList), ('c' :: "on".toList), ('p' :: "rn".toList), ('n' :: "ul".toList),
   ('c' :: "onin$".toList), ('c' :: "onout$".toList)] ++
  digitChars.map (fun d => 'c' :: 'o' :: 'm' :: [d]) ++
  digitChars.map (fun d => 'l' :: 'p' :: 't' :: [d])

/-- The occurrence of reserved name `nm` at character index `i` of `comp`,
qualified by the validator's context rule: the text before the occurrence
trims (of trailing whitespace) to empty, and the text after it trims (of
leading whitespace) to empty or begins with `.`. -/
def occursQualAt (comp nm : List Char) (i : Nat) : Bool :=
  ((comp.drop i).take nm.length).map toAsciiLower == nm &&
  trimEnd (comp.take i) == [] &&
  (trimStart (comp.drop (i + nm.length)) == [] ||
   (trimStart (comp.drop (i + nm.length))).head? == some '.')

/-- The naive reference search: some reserved name occurs somewhere in the
component (ASCII-case-insensitively) with qualifying surrounding context. -/
def hasQualReserved (comp : List Char) : Bool :=
  (List.range comp.length).any fun i => reservedNamesList.any fun nm => occursQualAt comp nm i

/-! ## Helper lemmas: characters and byte lengths -/

theorem char_eq_of_toNat {a b : Char} (h : a.toNat = b.toNat) : a = b :=
  Char.eq_of_val_eq (UInt32.ext h)

theorem char_eq_iff_toNat {a b : Char} : a = b ↔ a.toNat = b.toNat :=
  ⟨fun h => h ▸ rfl, char_eq_of_toNat⟩

theorem char_le_iff_toNat {a b : Char} : a ≤ b ↔ a.toNat ≤ b.toNat :=
  ⟨fun h => h, fun h => h⟩

theorem utf8Size_pos (c : Char) : 1 ≤ utf8Size c := by
  unfold utf8Size
  split <;> simp_all <;> split <;> simp_all <;> split <;> simp_all

theorem byteLen_nil : byteLen [] = 0 := rfl

theorem byteLen_cons (c : Char) (s : List Char) :
    byteLen (c :: s) = utf8Size c + byteLen s := by
  simp [byteLen]

theorem byteLen_append (s t : List Char) : byteLen (s ++ t) = byteLen s + byteLen t := by
  simp [byteLen]

theorem byteLen_eq_zero {s : List Char} : byteLen s = 0 ↔ s = [] := by
  cases s with
  | nil => simp [byteLen]
  | cons c t =>
    simp only [byteLen_cons]
    have := utf8Size_pos c
    constructor
    · intro h; omega
    · intro h; simp at h

theorem byteLen_pos {s : List Char} (h : s ≠ []) : 1 ≤ byteLen s := by
  rcases Nat.eq_zero_or_pos (byteLen s) with h0 | h1
  · exact absurd (byteLen_eq_zero.mp h0) h
  · exact h1

theorem length_le_byteLen (s : List Char) : s.length ≤ byteLen s := by
  induction s with
  | nil => simp [byteLen]
  | cons c t ih =>
    have := utf8Size_pos c
    simp only [List.length_cons, byteLen_cons]
    omega

/-! ## Helper lemmas: canonical lengths -/

theorem canonFold_cons (n : Nat) (c : List Char) (cs : List (List Char)) :
    canonFold n (c :: cs) = canonFold (canonAdd n c) cs := rfl

theorem canonFold_ge (cs : List (List Char)) : ∀ n, n ≤ canonFold n cs := by
  induction cs with
  | nil => intro n; simp [canonFold]
  | cons c cs ih =>
    intro n
    have h2 := ih (canonAdd n c)
    have : n ≤ canonAdd n c := by unfold canonAdd; split <;> omega
    calc n ≤ canonAdd n c := this
    _ ≤ canonFold (canonAdd n c) cs := h2
    _ = canonFold n (c :: cs) := (canonFold_cons ..).symm

theorem canonFold_of_pos (cs : List (List Char)) :
    ∀ n, 1 ≤ n → canonFold n cs = n + (cs.map fun c => 1 + byteLen c).sum := by
  induction cs with
  | nil => intro n _; simp [canonFold]
  | cons c cs ih =>
    intro n hn
    rw [canonFold_cons, ih (canonAdd n c) (by unfold canonAdd; split <;> omega)]
    unfold canonAdd
    rw [if_pos (by omega)]
    simp only [List.map_cons, List.sum_cons]
    omega

theorem canonLen_cons {c : List Char} (cs : List (List Char)) (h : c ≠ []) :
    canonLen (c :: cs) = byteLen c + (cs.map fun d => 1 + byteLen d).sum := by
  have hb := byteLen_pos h
  rw [canonLen, canonFold_cons]
  have : canonAdd 0 c = byteLen c := by unfold canonAdd; simp
  rw [this, canonFold_of_pos cs (byteLen c) hb]

theorem canonLen_pos {c : List Char} (cs : List (List Char)) (h : c ≠ []) :
    1 ≤ canonLen (c :: cs) := by
  rw [canonLen_cons cs h]
  have := byteLen_pos h
  omega

theorem canonLen_add_one {cs : List (List Char)} (hne : cs ≠ [])
    (h : ∀ c ∈ cs, c ≠ []) :
    canonLen cs + 1 = (cs.map fun d => 1 + byteLen d).sum := by
  cases cs with
  | nil => exact absurd rfl hne
  | cons c cs =>
    rw [canonLen_cons cs (h c (by simp))]
    simp only [List.map_cons, List.sum_cons]
    omega

/-! ## Helper lemmas: joins and splits -/

theorem joinSep_cons (c : List Char) {cs : List (List Char)} (h : cs ≠ []) :
    joinSep (c :: cs) = c ++ '/' :: joinSep cs := by
  cases cs with
  | nil => exact absurd rfl h
  | cons d ds => rfl

theorem joinSep_ne_nil {cs : List (List Char)} (hne : cs ≠ [])
    (h : ∀ c ∈ cs, c ≠ []) : joinSep cs ≠ [] := by
  cases cs with
  | nil => exact absurd rfl hne
  | cons c cs =>
    cases cs with
    | nil => exact h c (by simp)
    | cons d ds =>
      rw [joinSep_cons c (by simp)]
      intro hcontra
      have := h c (by simp)
      rcases List.append_eq_nil.mp hcontra with ⟨h1, h2⟩
      exact this h1

theorem byteLen_joinSep {cs : List (List Char)} (hne : cs ≠ [])
    (h : ∀ c ∈ cs, c ≠ []) : byteLen (joinSep cs) = canonLen cs := by
  induction cs with
  | nil => exact absurd rfl hne
  | cons c cs ih =>
    cases cs with
    | nil =>
      show byteLen c = canonLen [c]
      rw [canonLen_cons [] (h c (by simp))]
      simp
    | cons d ds =>
      rw [joinSep_cons c (by simp), byteLen_append, byteLen_cons,
        ih (by simp) (fun x hx => h x (by simp [hx]))]
      rw [canonLen_cons (d :: ds) (h c (by simp)),
        canonLen_cons ds (h d (by simp))]
      have h1 : utf8Size '/' = 1 := rfl
      simp only [List.map_cons, List.sum_cons, h1]
      omega

theorem splitOnPred_not_mem {p : Char → Bool} {s : List Char}
    (h : ∀ c ∈ s, p c = false) : splitOnPred p s = [s] := by
  induction s with
  | nil => rfl
  | cons c rest ih =>
    have hc := h c (by simp)
    rw [splitOnPred, if_neg (by simp [hc]), ih (fun x hx => h x (by simp [hx]))]

theorem splitOnPred_append_sep {p : Char → Bool} {s t : List Char} {sep : Char}
    (hs : ∀ c ∈ s, p c = false) (hsep : p sep = true) :
    splitOnPred p (s ++ sep :: t) = s :: splitOnPred p t := by
  induction s with
  | nil => simp [splitOnPred, hsep]
  | cons c rest ih =>
    have hc := hs c (by simp)
    rw [List.cons_append, splitOnPred, if_neg (by simp [hc]),
      ih (fun x hx => hs x (by simp [hx]))]

theorem splitSep_join {cs : List (List Char)} (hne : cs ≠ [])
    (h : ∀ c ∈ cs, c ≠ []) (hfree : ∀ c ∈ cs, ∀ ch ∈ c, isSep ch = false) :
    splitSep (joinSep cs) = cs := by
  induction cs with
  | nil => exact absurd rfl hne
  | cons c cs ih =>
    cases cs with
    | nil =>
      show splitSep c = [c]
      exact splitOnPred_not_mem (hfree c (by simp))
    | cons d ds =>
      rw [joinSep_cons c (by simp)]
      show splitOnPred isSep (c ++ '/' :: joinSep (d :: ds)) = c :: d :: ds
      rw [splitOnPred_append_sep (hfree c (by simp)) (by simp [isSep])]
      have := ih (by simp) (fun x hx => h x (by simp [hx]))
        (fun x hx => hfree x (by simp [hx]))
      rw [show splitOnPred isSep (joinSep (d :: ds)) = splitSep (joinSep (d :: ds)) from rfl,
        this]

theorem splitOnceSlash_not_mem {s : List Char} (h : '/' ∉ s) :
    splitOnceSlash s = none := by
  induction s with
  | nil => rfl
  | cons c rest ih =>
    rw [splitOnceSlash, if_neg (by intro hc; exact h (by simp [hc])),
      ih (fun hc => h (by simp [hc]))]

theorem splitOnceSlash_append {s : List Char} (t : List Char) (h : '/' ∉ s) :
    splitOnceSlash (s ++ '/' :: t) = some (s, t) := by
  induction s with
  | nil => simp [splitOnceSlash]
  | cons c rest ih =>
    rw [List.cons_append, splitOnceSlash,
      if_neg (by intro hc; exact h (by simp [hc])),
      ih (fun hc => h (by simp [hc]))]

theorem bufIterGo_join : ∀ (fuel : Nat) (cs : List (List Char)), cs ≠ [] →
    (∀ c ∈ cs, c ≠ []) → (∀ c ∈ cs, '/' ∉ c) → (joinSep cs).length ≤ fuel →
    bufIterGo fuel (joinSep cs) = cs := by
  intro fuel
  induction fuel with
  | zero =>
    intro cs hne h hfree hlen
    have := joinSep_ne_nil hne h
    have : 1 ≤ (joinSep cs).length := List.length_pos.mpr this
    omega
  | succ f ih =>
    intro cs hne h hfree hlen
    cases cs with
    | nil => exact absurd rfl hne
    | cons c cs =>
      cases cs with
      | nil =>
        show bufIterGo (f + 1) c = [c]
        rw [bufIterGo, splitOnceSlash_not_mem (hfree c (by simp))]
      | cons d ds =>
        rw [joinSep_cons c (by simp), bufIterGo,
          splitOnceSlash_append (joinSep (d :: ds)) (hfree c (by simp))]
        have hjne : joinSep (d :: ds) ≠ [] :=
          joinSep_ne_nil (by simp) (fun x hx => h x (by simp [hx]))
        show c :: (if joinSep (d :: ds) = [] then []
          else bufIterGo f (joinSep (d :: ds))) = c :: d :: ds
        rw [if_neg hjne]
        have hlen2 : (joinSep (d :: ds)).length ≤ f := by
          rw [joinSep_cons c (by simp)] at hlen
          simp only [List.length_append, List.length_cons] at hlen
          omega
        rw [ih (d :: ds) (by simp) (fun x hx => h x (by simp [hx]))
          (fun x hx => hfree x (by simp [hx])) hlen2]

theorem bufIter_join {cs : List (List Char)} (hne : cs ≠ [])
    (h : ∀ c ∈ cs, c ≠ []) (hfree : ∀ c ∈ cs, '/' ∉ c) :
    bufIterComponents (joinSep cs) = cs :=
  bufIterGo_join (joinSep cs).length cs hne h hfree le_rfl

/-! ## Helper lemmas: trimming -/

theorem trimStart_eq_nil_iff {l : List Char} :
    trimStart l = [] ↔ ∀ c ∈ l, rustIsWhitespace c = true := by
  unfold trimStart
  exact List.dropWhile_eq_nil_iff

theorem trimEnd_eq_nil_iff {l : List Char} :
    trimEnd l = [] ↔ ∀ c ∈ l, rustIsWhitespace c = true := by
  unfold trimEnd
  rw [List.reverse_eq_nil_iff, List.dropWhile_eq_nil_iff]
  constructor
  · intro h c hc; exact h c (List.mem_reverse.mpr hc)
  · intro h c hc; exact h c (List.mem_reverse.mp hc)

theorem trimStart_cons_not_ws {c : Char} {l : List Char}
    (h : rustIsWhitespace c = false) : trimStart (c :: l) = c :: l := by
  unfold trimStart
  rw [List.dropWhile_cons_of_neg (by simp [h])]

/-! ## Helper lemmas: native path parsing of canonical joins -/

theorem classifyPiece_normal {c : List Char} (h1 : c ≠ []) (h2 : c ≠ ['.'])
    (h3 : c ≠ ['.', '.']) (first : Bool) : classifyPiece c first = some (.normal c) := by
  unfold classifyPiece
  rw [if_neg h1, if_neg h2, if_neg h3]

theorem parseBody_all_normal :
    ∀ (pieces : List (List Char)) (first : Bool),
    (∀ c ∈ pieces, c ≠ [] ∧ c ≠ ['.'] ∧ c ≠ ['.', '.']) →
    parseBody pieces first = pieces.map .normal := by
  intro pieces
  induction pieces with
  | nil => intro first _; rfl
  | cons c rest ih =>
    intro first h
    obtain ⟨h1, h2, h3⟩ := h c (by simp)
    rw [parseBody, classifyPiece_normal h1 h2 h3, ih false (fun x hx => h x (by simp [hx]))]
    rfl

theorem hasWinDrive_cons_cons (a b : Char) (t : List Char) :
    hasWinDrive (a :: b :: t) = ((a.isAlpha && b = ':') || (isSep a && isSep b)) := rfl

theorem hasWinDrive_join_false {cs : List (List Char)} (hne : cs ≠ [])
    (h : ∀ c ∈ cs, c ≠ [])
    (hfree : ∀ c ∈ cs, ∀ ch ∈ c, isSep ch = false)
    (hcolon : ∀ c ∈ cs, ':' ∉ c) :
    hasWinDrive (joinSep cs) = false := by
  cases cs with
  | nil => exact absurd rfl hne
  | cons c cs =>
    cases c with
    | nil => exact absurd rfl (h [] (by simp))
    | cons a ctail =>
      have hsa : isSep a = false := hfree (a :: ctail) (by simp) a (by simp)
      cases ctail with
      | nil =>
        cases cs with
        | nil => rfl
        | cons d ds =>
          rw [joinSep_cons [a] (by simp)]
          show hasWinDrive (a :: '/' :: joinSep (d :: ds)) = false
          rw [hasWinDrive_cons_cons]
          have hb : (('/' : Char) = ':') = False := by simp
          simp [hsa, hb]
      | cons b btail =>
        have hsb : isSep b = false := hfree (a :: b :: btail) (by simp) b (by simp)
        have hcb : (b = ':') = False := by
          simp only [eq_iff_iff, iff_false]
          intro hb
          exact hcolon (a :: b :: btail) (by simp) (by simp [hb])
        cases cs with
        | nil =>
          show hasWinDrive (a :: b :: btail) = false
          rw [hasWinDrive_cons_cons]
          simp [hsa, hsb, hcb]
        | cons d ds =>
          rw [joinSep_cons (a :: b :: btail) (by simp)]
          show hasWinDrive (a :: b :: (btail ++ '/' :: joinSep (d :: ds))) = false
          rw [hasWinDrive_cons_cons]
          simp [hsa, hsb, hcb]

theorem pathComponents_cons_not_sep {a : Char} {t : List Char}
    (hdrive : hasWinDrive (a :: t) = false) (hsa : isSep a = false) :
    pathComponents (a :: t) = parseBody (splitSep (a :: t)) true := by
  unfold pathComponents
  rw [hdrive, if_neg (by simp)]
  exact if_neg (by simp [hsa])

theorem pathComponents_join {cs : List (List Char)} (hne : cs ≠ [])
    (h : ∀ c ∈ cs, c ≠ [])
    (hfree : ∀ c ∈ cs, ∀ ch ∈ c, isSep ch = false)
    (hcolon : ∀ c ∈ cs, ':' ∉ c)
    (hdot : ∀ c ∈ cs, c ≠ ['.'] ∧ c ≠ ['.', '.']) :
    pathComponents (joinSep cs) = cs.map .normal := by
  have hdrive := hasWinDrive_join_false hne h hfree hcolon
  obtain ⟨c, cs2, rfl⟩ : ∃ c cs2, cs = c :: cs2 := by
    cases cs with
    | nil => exact absurd rfl hne
    | cons c cs2 => exact ⟨c, cs2, rfl⟩
  obtain ⟨a, ctail, rfl⟩ : ∃ a ctail, c = a :: ctail := by
    cases c with
    | nil => exact absurd rfl (h [] (by simp))
    | cons a ctail => exact ⟨a, ctail, rfl⟩
  have hsa : isSep a = false := hfree (a :: ctail) (by simp) a (by simp)
  have hjoin : joinSep ((a :: ctail) :: cs2)
      = a :: (ctail ++ if cs2 = [] then [] else '/' :: joinSep cs2) := by
    cases cs2 with
    | nil => simp [joinSep]
    | cons d ds => rw [joinSep_cons (a :: ctail) (by simp)]; simp
  rw [hjoin] at hdrive
  rw [hjoin, pathComponents_cons_not_sep hdrive hsa, ← hjoin,
    show splitSep (joinSep ((a :: ctail) :: cs2)) = (a :: ctail) :: cs2 from
      splitSep_join hne h hfree]
  exact parseBody_all_normal _ true (fun x hx => ⟨h x hx, (hdot x hx).1, (hdot x hx).2⟩)

theorem pathNormalComponents_of_parse {s : List Char} {cs : List (List Char)}
    (h : pathComponents s = cs.map .normal) : pathNormalComponents s = cs := by
  unfold pathNormalComponents
  rw [h, List.filterMap_map]
  have : ∀ c : List Char,
      ((fun comp => match comp with
        | PathComp.normal c => some c
        | _ => none) ∘ PathComp.normal) c = some c := fun c => rfl
  rw [List.filterMap_congr (fun c _ => this c)]
  exact List.filterMap_some _

/-! ## Helper lemmas: the component validator -/

theorem validate_ok_iff {c : List Char} {ctx : List PathComp} :
    validate_normal_path_component c ctx = .ok () ↔
      (byteLen c ≤ MAX_COMPONENT_LEN ∧ c.getLast? ≠ some '.' ∧ c.getLast? ≠ some ' ' ∧
       c.find? isInvalidChar = none ∧ reservedHit c = false) := by
  unfold validate_normal_path_component
  by_cases h1 : byteLen c > MAX_COMPONENT_LEN
  · rw [if_pos h1]
    exact ⟨fun hcontra => absurd hcontra (by simp),
      fun hcontra => absurd hcontra.1 (by omega)⟩
  · rw [if_neg h1]
    by_cases h2 : c.getLast? = some '.'
    · rw [if_pos h2]
      exact ⟨fun hcontra => absurd hcontra (by simp),
        fun hcontra => absurd h2 hcontra.2.1⟩
    · rw [if_neg h2]
      by_cases h3 : c.getLast? = some ' '
      · rw [if_pos h3]
        exact ⟨fun hcontra => absurd hcontra (by simp),
          fun hcontra => absurd h3 hcontra.2.2.1⟩
      · rw [if_neg h3]
        cases hf : c.find? isInvalidChar with
        | some ch =>
          exact ⟨fun hcontra => absurd hcontra (by simp),
            fun hcontra => absurd hcontra.2.2.2.1 (by simp)⟩
        | none =>
          by_cases h5 : reservedHit c
          · rw [if_pos h5]
            exact ⟨fun hcontra => absurd hcontra (by simp),
              fun hcontra => absurd hcontra.2.2.2.2 (by simp [h5])⟩
          · rw [if_neg h5]
            exact ⟨fun _ => ⟨by omega, h2, h3, rfl, by simp [h5]⟩, fun _ => rfl⟩

theorem validate_ok_ctx {c : List Char} {ctx ctx2 : List PathComp}
    (h : validate_normal_path_component c ctx = .ok ()) :
    validate_normal_path_component c ctx2 = .ok () := by
  rw [validate_ok_iff] at h ⊢
  exact h

theorem validate_ok_no_invalid {c : List Char} {ctx : List PathComp}
    (h : validate_normal_path_component c ctx = .ok ()) :
    ∀ ch ∈ c, isInvalidChar ch = false := by
  have hf := (validate_ok_iff.mp h).2.2.2.1
  intro ch hch
  have := List.find?_eq_none.mp hf ch hch
  simpa using this

theorem validate_ok_not_sep {c : List Char} {ctx : List PathComp}
    (h : validate_normal_path_component c ctx = .ok ()) :
    ∀ ch ∈ c, isSep ch = false := by
  intro ch hch
  have hni := validate_ok_no_invalid h ch hch
  by_contra hsep
  rw [Bool.not_eq_false] at hsep
  have : ch = '/' ∨ ch = '\\' := by
    rcases Bool.or_eq_true_iff.mp hsep with h' | h'
    · left; exact of_decide_eq_true h'
    · right; exact of_decide_eq_true h'
  rcases this with rfl | rfl
  · exact absurd hni (by decide)
  · exact absurd hni (by decide)

theorem validate_ok_no_colon {c : List Char} {ctx : List PathComp}
    (h : validate_normal_path_component c ctx = .ok ()) : ':' ∉ c := by
  intro hmem
  have := validate_ok_no_invalid h ':' hmem
  exact absurd this (by decide)

theorem validate_ok_no_slash {c : List Char} {ctx : List PathComp}
    (h : validate_normal_path_component c ctx = .ok ()) : '/' ∉ c := by
  intro hmem
  have := validate_ok_no_invalid h '/' hmem
  exact absurd this (by decide)

theorem validate_ok_ne_dots {c : List Char} {ctx : List PathComp}
    (h : validate_normal_path_component c ctx = .ok ()) :
    c ≠ ['.'] ∧ c ≠ ['.', '.'] := by
  have h2 := (validate_ok_iff.mp h).2.1
  constructor
  · intro hc; rw [hc] at h2; exact h2 rfl
  · intro hc; rw [hc] at h2; exact h2 rfl

theorem validate_ok_len {c : List Char} {ctx : List PathComp}
    (h : validate_normal_path_component c ctx = .ok ()) :
    byteLen c ≤ MAX_COMPONENT_LEN :=
  (validate_ok_iff.mp h).1

/-! ## Helper lemmas: the `iterate_path` loop -/

theorem iterLoop_ok_of_valid :
    ∀ (cs : List (List Char)) (seen : List PathComp) (n : Nat),
    (∀ c ∈ cs, c ≠ [] ∧ validate_normal_path_component c [] = .ok ()) →
    iterLoop (cs.map .normal) seen n = .ok (canonFold n cs) := by
  intro cs
  induction cs with
  | nil => intro seen n _; rfl
  | cons c cs ih =>
    intro seen n h
    obtain ⟨hne, hv⟩ := h c (by simp)
    have hv2 : validate_normal_path_component c (seen ++ [.normal c]) = .ok () :=
      validate_ok_ctx hv
    simp only [List.map_cons, iterLoop, if_neg hne, hv2]
    exact ih (seen ++ [.normal c]) (canonAdd n c) (fun x hx => h x (by simp [hx]))

theorem iterLoop_ok_inv :
    ∀ (comps : List PathComp) (seen : List PathComp) (n m : Nat),
    iterLoop comps seen n = .ok m →
    ∃ cs : List (List Char), comps = cs.map .normal ∧
      (∀ c ∈ cs, c ≠ [] ∧ validate_normal_path_component c [] = .ok ()) ∧
      m = canonFold n cs := by
  intro comps
  induction comps with
  | nil =>
    intro seen n m h
    refine ⟨[], rfl, by simp, ?_⟩
    simp only [iterLoop, Except.ok.injEq] at h
    exact h.symm
  | cons comp rest ih =>
    intro seen n m h
    cases comp with
    | pfx => exact absurd h (by simp [iterLoop])
    | rootDir => exact absurd h (by simp [iterLoop])
    | curDir => exact absurd h (by simp [iterLoop])
    | parentDir => exact absurd h (by simp [iterLoop])
    | normal c =>
      by_cases hne : c = []
      · rw [iterLoop, if_pos hne] at h
        exact absurd h (by simp)
      · rw [iterLoop, if_neg hne] at h
        cases hv : validate_normal_path_component c (seen ++ [.normal c]) with
        | error e => rw [hv] at h; exact absurd h (by simp)
        | ok u =>
          rw [hv] at h
          obtain ⟨cs, hcs, hval, hm⟩ := ih (seen ++ [.normal c]) (canonAdd n c) m h
          refine ⟨c :: cs, by simp [hcs], ?_, by rw [canonFold_cons]; exact hm⟩
          intro x hx
          rcases List.mem_cons.mp hx with rfl | hx2
          · exact ⟨hne, validate_ok_ctx (by cases u; exact hv)⟩
          · exact hval x hx2

theorem iterate_path_join_ok {cs : List (List Char)} (hne : cs ≠ [])
    (hv : ∀ c ∈ cs, c ≠ [] ∧ validate_normal_path_component c [] = .ok ())
    (hlen : canonLen cs ≤ MAX_PATH_LEN) :
    iterate_path (joinSep cs) = .ok true := by
  have hparse := pathComponents_join hne (fun c hc => (hv c hc).1)
    (fun c hc => validate_ok_not_sep (hv c hc).2)
    (fun c hc => validate_ok_no_colon (hv c hc).2)
    (fun c hc => validate_ok_ne_dots (hv c hc).2)
  unfold iterate_path
  rw [hparse, iterLoop_ok_of_valid cs [] 0 hv]
  have hpos : 1 ≤ canonLen cs := by
    cases cs with
    | nil => exact absurd rfl hne
    | cons c cs2 => exact canonLen_pos cs2 (hv c (by simp)).1
  show (if canonLen cs > MAX_PATH_LEN then Except.error (FilePathError.PathTooLong (canonLen cs))
    else Except.ok (decide (canonLen cs > 0))) = Except.ok true
  rw [if_neg (by omega)]
  simp only [Except.ok.injEq, decide_eq_true_eq]
  omega

theorem iterate_path_join_too_long {cs : List (List Char)} (hne : cs ≠ [])
    (hv : ∀ c ∈ cs, c ≠ [] ∧ validate_normal_path_component c [] = .ok ())
    (hlen : canonLen cs > MAX_PATH_LEN) :
    iterate_path (joinSep cs) = .error (.PathTooLong (canonLen cs)) := by
  have hparse := pathComponents_join hne (fun c hc => (hv c hc).1)
    (fun c hc => validate_ok_not_sep (hv c hc).2)
    (fun c hc => validate_ok_no_colon (hv c hc).2)
    (fun c hc => validate_ok_ne_dots (hv c hc).2)
  unfold iterate_path
  rw [hparse, iterLoop_ok_of_valid cs [] 0 hv]
  show (if canonLen cs > MAX_PATH_LEN then Except.error (FilePathError.PathTooLong (canonLen cs))
    else Except.ok (decide (canonLen cs > 0))) = _
  rw [if_pos hlen]

/-! ## Helper lemmas: appending and building -/

/-- Folding `append_path_component_to_string` over a component sequence. -/
def appendAll (s : List Char) (cs : List (List Char)) : List Char :=
  cs.foldl (fun acc c => append_path_component_to_string c acc) s

theorem appendAll_cons (s c : List Char) (cs : List (List Char)) :
    appendAll s (c :: cs) = appendAll (append_path_component_to_string c s) cs := rfl

theorem joinSep_eq_flat (c : List Char) (cs : List (List Char)) :
    joinSep (c :: cs) = c ++ (cs.map fun d => '/' :: d).flatten := by
  induction cs generalizing c with
  | nil => simp [joinSep]
  | cons d ds ih =>
    rw [joinSep_cons c (by simp), ih d]
    simp

theorem appendAll_of_ne_nil :
    ∀ (cs : List (List Char)) (s : List Char), s ≠ [] →
    appendAll s cs = s ++ (cs.map fun d => '/' :: d).flatten := by
  intro cs
  induction cs with
  | nil => intro s _; simp [appendAll]
  | cons c cs ih =>
    intro s hs
    rw [appendAll_cons]
    have h1 : append_path_component_to_string c s = s ++ '/' :: c := by
      unfold append_path_component_to_string
      rw [if_pos hs]
      simp
    rw [h1, ih (s ++ '/' :: c) (by simp)]
    simp

theorem appendAll_nil_eq_join {cs : List (List Char)} (h : ∀ c ∈ cs, c ≠ []) :
    appendAll [] cs = joinSep cs := by
  cases cs with
  | nil => rfl
  | cons c cs2 =>
    rw [appendAll_cons]
    have h1 : append_path_component_to_string c [] = c := by
      unfold append_path_component_to_string
      simp
    rw [h1, joinSep_eq_flat]
    cases hc : cs2 with
    | nil => simp [appendAll]
    | cons d ds => exact appendAll_of_ne_nil (d :: ds) c (h c (by simp))

theorem appendLoop_all_fit :
    ∀ (cs : List (List Char)) (n : Nat) (s : List Char), byteLen s = n →
    canonFold n cs ≤ MAX_PATH_LEN →
    appendLoop cs n s = .ok (appendAll s cs) := by
  intro cs
  induction cs with
  | nil =>
    intro n s hb hc
    have : canonFold n [] = n := rfl
    rw [appendLoop, if_neg (by omega)]
    rfl
  | cons c cs ih =>
    intro n s hb hc
    rw [appendLoop]
    have hstep : ((if n ≠ 0 then n + 1 else n) + byteLen c) = canonAdd n c := rfl
    have hle : canonAdd n c ≤ MAX_PATH_LEN := by
      have h1 : canonFold n (c :: cs) = canonFold (canonAdd n c) cs := canonFold_cons ..
      have h2 := canonFold_ge cs (canonAdd n c)
      omega
    rw [hstep, if_pos hle]
    have hb2 : byteLen (append_path_component_to_string c s) = canonAdd n c := by
      unfold append_path_component_to_string canonAdd
      by_cases hs : s = []
      · have : n = 0 := by rw [← hb, hs]; rfl
        rw [if_neg (by simp [hs]), if_neg (by simp [this])]
        simp [this, hs]
      · have : n ≠ 0 := by
          rw [← hb]
          have := byteLen_pos hs
          omega
        rw [if_pos hs, if_pos this, byteLen_append, byteLen_append]
        have : byteLen ['/'] = 1 := rfl
        omega
    rw [ih (canonAdd n c) _ hb2 (by rw [← canonFold_cons]; exact hc)]
    rfl

theorem FilePathBuf_new_join {cs : List (List Char)} (hne : cs ≠ [])
    (hv : ∀ c ∈ cs, c ≠ [] ∧ validate_normal_path_component c [] = .ok ())
    (hlen : canonLen cs ≤ MAX_PATH_LEN) :
    FilePathBuf.new (joinSep cs) = .ok (joinSep cs) := by
  have hiter := iterate_path_join_ok hne hv hlen
  have hparse := pathComponents_join hne (fun c hc => (hv c hc).1)
    (fun c hc => validate_ok_not_sep (hv c hc).2)
    (fun c hc => validate_ok_no_colon (hv c hc).2)
    (fun c hc => validate_ok_ne_dots (hv c hc).2)
  have hnorm := pathNormalComponents_of_parse hparse
  unfold FilePathBuf.new FilePath.new
  rw [hiter]
  show (match append_file_path_to_string (joinSep cs) [] with
    | .error e => Except.error e
    | .ok out => if out = [] then Except.error FilePathError.EmptyPath else Except.ok out)
    = Except.ok (joinSep cs)
  unfold append_file_path_to_string
  rw [hnorm]
  have hb0 : byteLen ([] : List Char) = 0 := rfl
  rw [hb0, appendLoop_all_fit cs 0 [] hb0 hlen,
    appendAll_nil_eq_join (fun c hc => (hv c hc).1)]
  exact if_neg (joinSep_ne_nil hne (fun c hc => (hv c hc).1))

theorem FilePathBuf_new_inv {s p : List Char} (h : FilePathBuf.new s = .ok p) :
    ∃ cs : List (List Char), cs ≠ [] ∧
      (∀ c ∈ cs, c ≠ [] ∧ validate_normal_path_component c [] = .ok ()) ∧
      canonLen cs ≤ MAX_PATH_LEN ∧ p = joinSep cs ∧ pathNormalComponents s = cs := by
  unfold FilePathBuf.new FilePath.new at h
  cases hit : iterate_path s with
  | error e => rw [hit] at h; exact absurd h (by simp)
  | ok b =>
    rw [hit] at h
    cases b with
    | false => exact absurd h (by simp)
    | true =>
      replace h : (match append_file_path_to_string s [] with
          | .error e => Except.error e
          | .ok out => if out = [] then Except.error FilePathError.EmptyPath
            else Except.ok out) = Except.ok p := h
      unfold iterate_path at hit
      cases hloop : iterLoop (pathComponents s) [] 0 with
      | error e => rw [hloop] at hit; exact absurd hit (by simp)
      | ok n =>
        rw [hloop] at hit
        replace hit : (if n > MAX_PATH_LEN then Except.error (FilePathError.PathTooLong n)
            else Except.ok (decide (n > 0))) = Except.ok true := hit
        by_cases hbig : n > MAX_PATH_LEN
        · rw [if_pos hbig] at hit; exact absurd hit (by simp)
        · rw [if_neg hbig] at hit
          simp only [Except.ok.injEq, decide_eq_true_eq] at hit
          obtain ⟨cs, hcs, hval, hn⟩ := iterLoop_ok_inv (pathComponents s) [] 0 n hloop
          have hnorm := pathNormalComponents_of_parse hcs
          have hcsne : cs ≠ [] := by
            intro hc
            rw [hc] at hn
            have : n = 0 := hn
            omega
          have hcslen : canonLen cs ≤ MAX_PATH_LEN := by rw [canonLen, ← hn]; omega
          refine ⟨cs, hcsne, hval, hcslen, ?_, hnorm⟩
          unfold append_file_path_to_string at h
          rw [hnorm] at h
          have hb0 : byteLen ([] : List Char) = 0 := rfl
          rw [hb0, appendLoop_all_fit cs 0 [] hb0 hcslen,
            appendAll_nil_eq_join (fun c hc => (hval c hc).1)] at h
          replace h : (if joinSep cs = [] then Except.error FilePathError.EmptyPath
              else Except.ok (joinSep cs)) = Except.ok p := h
          rw [if_neg (joinSep_ne_nil hcsne (fun c hc => (hval c hc).1))] at h
          simp only [Except.ok.injEq] at h
          exact h.symm

/-! ## Helper lemmas: character classes and ASCII lowercasing -/

theorem char_ne_of_toNat_ne {a b : Char} (h : a.toNat ≠ b.toNat) : a ≠ b :=
  fun he => h (he ▸ rfl)

theorem toAsciiLower_eq_self {c : Char} (h : ¬(0x41 ≤ c.toNat ∧ c.toNat ≤ 0x5A)) :
    toAsciiLower c = c := if_neg h

theorem toAsciiLower_toNat_of_upper {c : Char} (h : 0x41 ≤ c.toNat ∧ c.toNat ≤ 0x5A) :
    (toAsciiLower c).toNat = c.toNat + 0x20 := by
  unfold toAsciiLower
  rw [if_pos h]
  have hvalid : (c.toNat + 0x20).isValidChar := by
    left
    omega
  unfold Char.ofNat
  rw [dif_pos hvalid]
  rfl

theorem isAscii_of_toAsciiLower_le {c : Char} (h : (toAsciiLower c).toNat ≤ 0x7F) :
    isAsciiChar c = true := by
  by_cases hu : 0x41 ≤ c.toNat ∧ c.toNat ≤ 0x5A
  · simp [isAsciiChar]; omega
  · rw [toAsciiLower_eq_self hu] at h
    simp [isAsciiChar]; omega

theorem toAsciiLower_eq_iff {c d : Char} (hd : 0x61 ≤ d.toNat ∧ d.toNat ≤ 0x7A) :
    toAsciiLower c = d ↔ (c = d ∨ c.toNat + 0x20 = d.toNat) := by
  by_cases hu : 0x41 ≤ c.toNat ∧ c.toNat ≤ 0x5A
  · constructor
    · intro h
      right
      rw [← h, toAsciiLower_toNat_of_upper hu]
    · intro h
      rcases h with h | h
      · exfalso
        rw [h] at hu
        omega
      · apply char_eq_of_toNat
        rw [toAsciiLower_toNat_of_upper hu]
        exact h
  · rw [toAsciiLower_eq_self hu]
    constructor
    · intro h; left; exact h
    · intro h
      rcases h with h | h
      · exact h
      · exfalso
        omega

theorem toAsciiLower_eq_iff_not_letter {c d : Char}
    (hd : d.toNat < 0x41 ∨ (0x5A < d.toNat ∧ d.toNat < 0x61) ∨ 0x7A < d.toNat) :
    toAsciiLower c = d ↔ c = d := by
  by_cases hu : 0x41 ≤ c.toNat ∧ c.toNat ≤ 0x5A
  · constructor
    · intro h
      exfalso
      have := toAsciiLower_toNat_of_upper hu
      rw [h] at this
      omega
    · intro h
      exfalso
      rw [h] at hu
      omega
  · rw [toAsciiLower_eq_self hu]

theorem restart_none_of_lt {c : Char} (h : c.toNat < 97) : restart c = none := by
  unfold restart
  rw [if_neg (char_ne_of_toNat_ne (by rw [show ('a' : Char).toNat = 97 from rfl]; omega)),
    if_neg (char_ne_of_toNat_ne (by rw [show ('n' : Char).toNat = 110 from rfl]; omega)),
    if_neg (char_ne_of_toNat_ne (by rw [show ('p' : Char).toNat = 112 from rfl]; omega)),
    if_neg (char_ne_of_toNat_ne (by rw [show ('c' : Char).toNat = 99 from rfl]; omega)),
    if_neg (char_ne_of_toNat_ne (by rw [show ('l' : Char).toNat = 108 from rfl]; omega))]

theorem restart_ws {c : Char} (hws : rustIsWhitespace c = true)
    (ha : isAsciiChar c = true) : restart (toAsciiLower c) = none := by
  simp only [rustIsWhitespace, Bool.or_eq_true, decide_eq_true_eq, Bool.and_eq_true] at hws
  simp only [isAsciiChar, decide_eq_true_eq] at ha
  have hle : c.toNat ≤ 0x20 := by omega
  rw [toAsciiLower_eq_self (by omega)]
  exact restart_none_of_lt (by omega)

/-! ## The matched prefix of each automaton state -/

/-- The (lowercased) characters consumed by a match-in-progress in the given
state. -/
def stateChars : ReservedName → List Char
  | .AUX .A => ['a']
  | .AUX .U => ['a', 'u']
  | .NUL .N => ['n']
  | .NUL .U => ['n', 'u']
  | .PRN .P => ['p']
  | .PRN .R => ['p', 'r']
  | .CONOrMOrINOrOUT .C => ['c']
  | .CONOrMOrINOrOUT .O => ['c', 'o']
  | .CONOrMOrINOrOUT .N => ['c', 'o', 'n']
  | .CONOrMOrINOrOUT .M => ['c', 'o', 'm']
  | .CONOrMOrINOrOUT .NI => ['c', 'o', 'n', 'i']
  | .CONOrMOrINOrOUT .NIN => ['c', 'o', 'n', 'i', 'n']
  | .CONOrMOrINOrOUT .NO => ['c', 'o', 'n', 'o']
  | .CONOrMOrINOrOUT .NOU => ['c', 'o', 'n', 'o', 'u']
  | .CONOrMOrINOrOUT .NOUT => ['c', 'o', 'n', 'o', 'u', 't']
  | .LPT .L => ['l']
  | .LPT .P => ['l', 'p']
  | .LPT .T => ['l', 'p', 't']

theorem stateChars_restart {c2 : Char} {s0 : ReservedName} (h : restart c2 = some s0) :
    stateChars s0 = [c2] := by
  unfold restart at h
  split_ifs at h with h1 h2 h3 h4 h5 <;>
    first
      | (injection h with h; subst h; subst_vars; rfl)
      | (exact absurd h (by simp))

theorem stateChars_accept {s s2 : ReservedName} {c2 : Char}
    (h : s.accept c2 = .Accepted s2) : stateChars s2 = stateChars s ++ [c2] := by
  cases s with
  | AUX a =>
    cases a <;> simp only [ReservedName.accept, AUX.accept] at h <;>
      split_ifs at h <;> simp_all [AcceptResult.mapState] <;> subst_vars <;> rfl
  | NUL a =>
    cases a <;> simp only [ReservedName.accept, NUL.accept] at h <;>
      split_ifs at h <;> simp_all [AcceptResult.mapState] <;> subst_vars <;> rfl
  | PRN a =>
    cases a <;> simp only [ReservedName.accept, PRN.accept] at h <;>
      split_ifs at h <;> simp_all [AcceptResult.mapState] <;> subst_vars <;> rfl
  | CONOrMOrINOrOUT a =>
    cases a <;> simp only [ReservedName.accept, CONOrMOrINOrOUT.accept] at h <;>
      split_ifs at h <;> simp_all [AcceptResult.mapState] <;> subst_vars <;> rfl
  | LPT a =>
    cases a <;> simp only [ReservedName.accept, LPT.accept] at h <;>
      split_ifs at h <;> simp_all [AcceptResult.mapState] <;> subst_vars <;> rfl

theorem accept_finished_cases {s : ReservedName} {c2 : Char} {so eo : Nat}
    (h : s.accept c2 = .AcceptedAndFinished so eo) :
    (s = .AUX .U ∧ c2 = 'x' ∧ so = 2 ∧ eo = 0) ∨
    (s = .NUL .U ∧ c2 = 'l' ∧ so = 2 ∧ eo = 0) ∨
    (s = .PRN .R ∧ c2 = 'n' ∧ so = 2 ∧ eo = 0) ∨
    (s = .CONOrMOrINOrOUT .N ∧ c2 ≠ 'i' ∧ c2 ≠ 'o' ∧ so = 3 ∧ eo = 1) ∨
    (s = .CONOrMOrINOrOUT .M ∧ '1' ≤ c2 ∧ c2 ≤ '9' ∧ so = 3 ∧ eo = 0) ∨
    (s = .CONOrMOrINOrOUT .NIN ∧ c2 = '$' ∧ so = 5 ∧ eo = 0) ∨
    (s = .CONOrMOrINOrOUT .NOUT ∧ c2 = '$' ∧ so = 6 ∧ eo = 0) ∨
    (s = .LPT .T ∧ '1' ≤ c2 ∧ c2 ≤ '9' ∧ so = 3 ∧ eo = 0) := by
  cases s with
  | AUX a =>
    cases a <;> simp only [ReservedName.accept, AUX.accept] at h <;>
      split_ifs at h <;> simp_all [AcceptResult.mapState]
  | NUL a =>
    cases a <;> simp only [ReservedName.accept, NUL.accept] at h <;>
      split_ifs at h <;> simp_all [AcceptResult.mapState]
  | PRN a =>
    cases a <;> simp only [ReservedName.accept, PRN.accept] at h <;>
      split_ifs at h <;> simp_all [AcceptResult.mapState]
  | CONOrMOrINOrOUT a =>
    cases a <;> simp only [ReservedName.accept, CONOrMOrINOrOUT.accept] at h <;>
      split_ifs at h <;> simp_all [AcceptResult.mapState]
  | LPT a =>
    cases a <;> simp only [ReservedName.accept, LPT.accept] at h <;>
      split_ifs at h <;> simp_all [AcceptResult.mapState]

theorem finish_cases {s : ReservedName} {p : Nat × Nat} (h : s.finish = some p) :
    s = .CONOrMOrINOrOUT .N ∧ p = (2, 0) := by
  cases s with
  | AUX a => cases a <;> simp [ReservedName.finish] at h
  | NUL a => cases a <;> simp [ReservedName.finish] at h
  | PRN a => cases a <;> simp [ReservedName.finish] at h
  | CONOrMOrINOrOUT a => cases a <;> simp_all [ReservedName.finish]
  | LPT a => cases a <;> simp [ReservedName.finish] at h

/-! ## Stepping lemmas for the scanning loop -/

theorem saGo_nil (comp : List Char) (idx : Nat) (st : Option ReservedName) :
    saGo comp [] idx st =
      (st.bind ReservedName.finish).map fun p => splitImpl comp (idx - 1) p.1 p.2 := rfl

theorem saGo_cons_na {comp rest : List Char} {idx : Nat} {c : Char}
    (st : Option ReservedName) (ha : isAsciiChar c = false) :
    saGo comp (c :: rest) idx st = saGo comp rest (idx + 1) none := by
  simp only [saGo]
  rw [if_neg (by simp [ha])]

theorem saGo_cons_none {comp rest : List Char} {idx : Nat} {c : Char}
    (ha : isAsciiChar c = true) :
    saGo comp (c :: rest) idx none = saGo comp rest (idx + 1) (restart (toAsciiLower c)) := by
  simp only [saGo]
  rw [if_pos ha]

theorem saGo_cons_some {comp rest : List Char} {idx : Nat} {c : Char} {s : ReservedName}
    (ha : isAsciiChar c = true) :
    saGo comp (c :: rest) idx (some s) =
      (match s.accept (toAsciiLower c) with
       | .NoMatch => saGo comp rest (idx + 1) (restart (toAsciiLower c))
       | .Accepted s2 => saGo comp rest (idx + 1) (some s2)
       | .AcceptedAndFinished so eo => some (splitImpl comp idx so eo)) := by
  simp only [saGo]
  rw [if_pos ha]

theorem saGo_step_noMatch {comp rest : List Char} {idx : Nat} {c : Char} {s : ReservedName}
    (ha : isAsciiChar c = true) (hacc : s.accept (toAsciiLower c) = .NoMatch) :
    saGo comp (c :: rest) idx (some s) = saGo comp rest (idx + 1) (restart (toAsciiLower c)) := by
  rw [saGo_cons_some ha, hacc]

theorem saGo_step_accept {comp rest : List Char} {idx : Nat} {c : Char} {s s2 : ReservedName}
    (ha : isAsciiChar c = true) (hacc : s.accept (toAsciiLower c) = .Accepted s2) :
    saGo comp (c :: rest) idx (some s) = saGo comp rest (idx + 1) (some s2) := by
  rw [saGo_cons_some ha, hacc]

theorem saGo_step_finished {comp rest : List Char} {idx : Nat} {c : Char} {s : ReservedName}
    {so eo : Nat}
    (ha : isAsciiChar c = true) (hacc : s.accept (toAsciiLower c) = .AcceptedAndFinished so eo) :
    saGo comp (c :: rest) idx (some s) = some (splitImpl comp idx so eo) := by
  rw [saGo_cons_some ha, hacc]

/-! ## Soundness of the automaton -/

/-- The lowercased slice of `k` characters of `comp` ending at index `idx`. -/
def lowSuffix (comp : List Char) (idx k : Nat) : List Char :=
  ((comp.drop (idx - k)).take k).map toAsciiLower

/-- Loop invariant: a match-in-progress in state `s` at scan position `idx`
has consumed exactly the characters of `stateChars s`, ending at `idx`. -/
def stInv (comp : List Char) (idx : Nat) : Option ReservedName → Prop
  | none => True
  | some s => (stateChars s).length ≤ idx ∧
      lowSuffix comp idx (stateChars s).length = stateChars s

theorem lowSuffix_zero (comp : List Char) (idx : Nat) : lowSuffix comp idx 0 = [] := by
  simp [lowSuffix]

theorem lowSuffix_snoc {comp t : List Char} {idx k : Nat} {c : Char}
    (hk : k ≤ idx) (hidx : comp.drop idx = c :: t) :
    lowSuffix comp (idx + 1) (k + 1) = lowSuffix comp idx k ++ [toAsciiLower c] := by
  unfold lowSuffix
  have h1 : idx + 1 - (k + 1) = idx - k := by omega
  rw [h1]
  have hcidx : comp[idx]? = some c := by
    have h2 := List.getElem?_drop comp idx 0
    rw [Nat.add_zero] at h2
    rw [← h2, hidx]
    simp
  have hget : (comp.drop (idx - k))[k]? = some c := by
    rw [List.getElem?_drop]
    rw [show idx - k + k = idx from by omega]
    exact hcidx
  rw [List.take_succ, hget]
  simp

theorem stInv_restart_succ {comp rest2 : List Char} {idx : Nat} {c : Char}
    (hdrop : comp.drop idx = c :: rest2) :
    stInv comp (idx + 1) (restart (toAsciiLower c)) := by
  cases hre : restart (toAsciiLower c) with
  | none => trivial
  | some s0 =>
    have hsc := stateChars_restart hre
    refine ⟨by rw [hsc]; simp, ?_⟩
    rw [hsc]
    rw [show ([toAsciiLower c]).length = 0 + 1 from rfl,
      lowSuffix_snoc (Nat.zero_le idx) hdrop, lowSuffix_zero]
    rfl

theorem mem_digitChars {d : Char} (h1 : '1' ≤ d) (h2 : d ≤ '9') : d ∈ digitChars := by
  have h1n : 49 ≤ d.toNat := char_le_iff_toNat.mp h1
  have h2n : d.toNat ≤ 57 := char_le_iff_toNat.mp h2
  have hmem : d.toNat ∈ [49, 50, 51, 52, 53, 54, 55, 56, 57] := by
    simp only [List.mem_cons, List.not_mem_nil, or_false]
    omega
  have hinj : Function.Injective Char.toNat := fun a b hab => char_eq_of_toNat hab
  have hmap : digitChars.map Char.toNat = [49, 50, 51, 52, 53, 54, 55, 56, 57] := rfl
  rw [← hmap] at hmem
  exact (List.mem_map_of_injective hinj).mp hmem

theorem com_mem {d : Char} (h1 : '1' ≤ d) (h2 : d ≤ '9') :
    ['c', 'o', 'm', d] ∈ reservedNamesList := by
  unfold reservedNamesList
  refine List.mem_append.mpr (Or.inl (List.mem_append.mpr (Or.inr ?_)))
  exact List.mem_map.mpr ⟨d, mem_digitChars h1 h2, rfl⟩

theorem lpt_mem {d : Char} (h1 : '1' ≤ d) (h2 : d ≤ '9') :
    ['l', 'p', 't', d] ∈ reservedNamesList := by
  unfold reservedNamesList
  refine List.mem_append.mpr (Or.inr ?_)
  exact List.mem_map.mpr ⟨d, mem_digitChars h1 h2, rfl⟩

theorem saGo_sound (comp : List Char) :
    ∀ (rest : List Char) (idx : Nat) (st : Option ReservedName) (l r : List Char),
    rest = comp.drop idx →
    stInv comp idx st →
    saGo comp rest idx st = some (l, r) →
    ∃ nm, nm ∈ reservedNamesList ∧ ∃ i : Nat,
      l = comp.take i ∧ r = comp.drop (i + nm.length) ∧
      ((comp.drop i).take nm.length).map toAsciiLower = nm := by
  intro rest
  induction rest with
  | nil =>
    intro idx st l r hdrop hinv hrun
    rw [saGo_nil] at hrun
    cases st with
    | none => simp at hrun
    | some s =>
      cases hf : s.finish with
      | none => simp [hf] at hrun
      | some p =>
        obtain ⟨hs, hp⟩ := finish_cases hf
        subst hs
        subst hp
        rw [Option.some_bind, hf] at hrun
        simp only [Option.map_some'] at hrun
        obtain ⟨h3le, hsuf⟩ := hinv
        have h3le2 : 3 ≤ idx := by simpa using h3le
        have hsuf2 : lowSuffix comp idx 3 = ['c', 'o', 'n'] := by simpa using hsuf
        injection hrun with hrun
        unfold splitImpl at hrun
        rw [Prod.mk.injEq] at hrun
        obtain ⟨hl, hr⟩ := hrun
        refine ⟨['c', 'o', 'n'], by decide, idx - 3, ?_, ?_, ?_⟩
        · rw [← hl, show idx - 1 - 2 = idx - 3 from by omega]
        · rw [← hr]
          rw [show idx - 3 + (['c', 'o', 'n'] : List Char).length = idx - 1 - 0 + 1 from by
            simp only [List.length_cons, List.length_nil]; omega]
        · show List.map toAsciiLower (List.take 3 (List.drop (idx - 3) comp)) = ['c', 'o', 'n']
          exact hsuf2
  | cons c rest2 ih =>
    intro idx st l r hdrop hinv hrun
    have hdropc : comp.drop idx = c :: rest2 := hdrop.symm
    have hdrop2 : comp.drop (idx + 1) = rest2 := by
      have h2 := List.drop_drop 1 idx comp
      rw [hdropc] at h2
      simpa using h2.symm
    by_cases ha : isAsciiChar c
    · cases st with
      | none =>
        rw [saGo_cons_none ha] at hrun
        exact ih (idx + 1) _ l r hdrop2.symm (stInv_restart_succ hdropc) hrun
      | some s =>
        cases hacc : s.accept (toAsciiLower c) with
        | NoMatch =>
          rw [saGo_step_noMatch ha hacc] at hrun
          exact ih (idx + 1) _ l r hdrop2.symm (stInv_restart_succ hdropc) hrun
        | Accepted s2 =>
          rw [saGo_step_accept ha hacc] at hrun
          refine ih (idx + 1) _ l r hdrop2.symm ?_ hrun
          obtain ⟨hkle, hsuf⟩ := hinv
          have hsc := stateChars_accept hacc
          refine ⟨by rw [hsc]; simp; omega, ?_⟩
          rw [hsc, show (stateChars s ++ [toAsciiLower c]).length
            = (stateChars s).length + 1 from by simp,
            lowSuffix_snoc hkle hdropc, hsuf]
        | AcceptedAndFinished so eo =>
          rw [saGo_step_finished ha hacc] at hrun
          injection hrun with hrun
          unfold splitImpl at hrun
          rw [Prod.mk.injEq] at hrun
          obtain ⟨hl, hr⟩ := hrun
          rcases accept_finished_cases hacc with
            ⟨hs, hc2, hso, heo⟩ | ⟨hs, hc2, hso, heo⟩ | ⟨hs, hc2, hso, heo⟩ |
            ⟨hs, hc2i, hc2o, hso, heo⟩ | ⟨hs, hc2a, hc2b, hso, heo⟩ |
            ⟨hs, hc2, hso, heo⟩ | ⟨hs, hc2, hso, heo⟩ | ⟨hs, hc2a, hc2b, hso, heo⟩
          · -- AUX
            subst hs; subst hso; subst heo
            obtain ⟨hkle, hsuf⟩ := hinv
            have hkle2 : 2 ≤ idx := by simpa using hkle
            have hsuf2 : lowSuffix comp idx 2 = ['a', 'u'] := by simpa using hsuf
            refine ⟨['a', 'u', 'x'], by decide, idx - 2, hl.symm, ?_, ?_⟩
            · rw [← hr]
              rw [show idx - 2 + (['a', 'u', 'x'] : List Char).length = idx - 0 + 1 from by
                simp only [List.length_cons, List.length_nil]; omega]
            · show List.map toAsciiLower (List.take 3 (List.drop (idx - 2) comp)) = ['a', 'u', 'x']
              have he : List.map toAsciiLower (List.take 3 (List.drop (idx - 2) comp))
                  = lowSuffix comp (idx + 1) 3 := by
                unfold lowSuffix
                rw [show idx + 1 - 3 = idx - 2 from by omega]
              rw [he, show (3 : Nat) = 2 + 1 from rfl, lowSuffix_snoc (by omega) hdropc,
                hsuf2, hc2]
              rfl
          · -- NUL
            subst hs; subst hso; subst heo
            obtain ⟨hkle, hsuf⟩ := hinv
            have hkle2 : 2 ≤ idx := by simpa using hkle
            have hsuf2 : lowSuffix comp idx 2 = ['n', 'u'] := by simpa using hsuf
            refine ⟨['n', 'u', 'l'], by decide, idx - 2, hl.symm, ?_, ?_⟩
            · rw [← hr]
              rw [show idx - 2 + (['n', 'u', 'l'] : List Char).length = idx - 0 + 1 from by
                simp only [List.length_cons, List.length_nil]; omega]
            · show List.map toAsciiLower (List.take 3 (List.drop (idx - 2) comp)) = ['n', 'u', 'l']
              have he : List.map toAsciiLower (List.take 3 (List.drop (idx - 2) comp))
                  = lowSuffix comp (idx + 1) 3 := by
                unfold lowSuffix
                rw [show idx + 1 - 3 = idx - 2 from by omega]
              rw [he, show (3 : Nat) = 2 + 1 from rfl, lowSuffix_snoc (by omega) hdropc,
                hsuf2, hc2]
              rfl
          · -- PRN
            subst hs; subst hso; subst heo
            obtain ⟨hkle, hsuf⟩ := hinv
            have hkle2 : 2 ≤ idx := by simpa using hkle
            have hsuf2 : lowSuffix comp idx 2 = ['p', 'r'] := by simpa using hsuf
            refine ⟨['p', 'r', 'n'], by decide, idx - 2, hl.symm, ?_, ?_⟩
            · rw [← hr]
              rw [show idx - 2 + (['p', 'r', 'n'] : List Char).length = idx - 0 + 1 from by
                simp only [List.length_cons, List.length_nil]; omega]
            · show List.map toAsciiLower (List.take 3 (List.drop (idx - 2) comp)) = ['p', 'r', 'n']
              have he : List.map toAsciiLower (List.take 3 (List.drop (idx - 2) comp))
                  = lowSuffix comp (idx + 1) 3 := by
                unfold lowSuffix
                rw [show idx + 1 - 3 = idx - 2 from by omega]
              rw [he, show (3 : Nat) = 2 + 1 from rfl, lowSuffix_snoc (by omega) hdropc,
                hsuf2, hc2]
              rfl
          · -- CON completed retroactively, excluding the current character
            subst hs; subst hso; subst heo
            obtain ⟨hkle, hsuf⟩ := hinv
            have hkle2 : 3 ≤ idx := by simpa using hkle
            have hsuf2 : lowSuffix comp idx 3 = ['c', 'o', 'n'] := by simpa using hsuf
            refine ⟨['c', 'o', 'n'], by decide, idx - 3, hl.symm, ?_, ?_⟩
            · rw [← hr]
              rw [show idx - 3 + (['c', 'o', 'n'] : List Char).length = idx - 1 + 1 from by
                simp only [List.length_cons, List.length_nil]; omega]
            · show List.map toAsciiLower (List.take 3 (List.drop (idx - 3) comp)) = ['c', 'o', 'n']
              exact hsuf2
          · -- COM followed by a digit
            subst hs; subst hso; subst heo
            obtain ⟨hkle, hsuf⟩ := hinv
            have hkle2 : 3 ≤ idx := by simpa using hkle
            have hsuf2 : lowSuffix comp idx 3 = ['c', 'o', 'm'] := by simpa using hsuf
            refine ⟨['c', 'o', 'm', toAsciiLower c], com_mem hc2a hc2b, idx - 3, hl.symm, ?_, ?_⟩
            · rw [← hr]
              rw [show idx - 3 + (['c', 'o', 'm', toAsciiLower c] : List Char).length = idx - 0 + 1 from by
                simp only [List.length_cons, List.length_nil]; omega]
            · show List.map toAsciiLower (List.take 4 (List.drop (idx - 3) comp)) = ['c', 'o', 'm', toAsciiLower c]
              have he : List.map toAsciiLower (List.take 4 (List.drop (idx - 3) comp))
                  = lowSuffix comp (idx + 1) 4 := by
                unfold lowSuffix
                rw [show idx + 1 - 4 = idx - 3 from by omega]
              rw [he, show (4 : Nat) = 3 + 1 from rfl, lowSuffix_snoc (by omega) hdropc,
                hsuf2]
              rfl
          · -- CONIN dollar
            subst hs; subst hso; subst heo
            obtain ⟨hkle, hsuf⟩ := hinv
            have hkle2 : 5 ≤ idx := by simpa using hkle
            have hsuf2 : lowSuffix comp idx 5 = ['c', 'o', 'n', 'i', 'n'] := by simpa using hsuf
            refine ⟨['c', 'o', 'n', 'i', 'n', '$'], by decide, idx - 5, hl.symm, ?_, ?_⟩
            · rw [← hr]
              rw [show idx - 5 + (['c', 'o', 'n', 'i', 'n', '$'] : List Char).length = idx - 0 + 1 from by
                simp only [List.length_cons, List.length_nil]; omega]
            · show List.map toAsciiLower (List.take 6 (List.drop (idx - 5) comp)) = ['c', 'o', 'n', 'i', 'n', '$']
              have he : List.map toAsciiLower (List.take 6 (List.drop (idx - 5) comp))
                  = lowSuffix comp (idx + 1) 6 := by
                unfold lowSuffix
                rw [show idx + 1 - 6 = idx - 5 from by omega]
              rw [he, show (6 : Nat) = 5 + 1 from rfl, lowSuffix_snoc (by omega) hdropc,
                hsuf2, hc2]
              rfl
          · -- CONOUT dollar
            subst hs; subst hso; subst heo
            obtain ⟨hkle, hsuf⟩ := hinv
            have hkle2 : 6 ≤ idx := by simpa using hkle
            have hsuf2 : lowSuffix comp idx 6 = ['c', 'o', 'n', 'o', 'u', 't'] := by simpa using hsuf
            refine ⟨['c', 'o', 'n', 'o', 'u', 't', '$'], by decide, idx - 6, hl.symm, ?_, ?_⟩
            · rw [← hr]
              rw [show idx - 6 + (['c', 'o', 'n', 'o', 'u', 't', '$'] : List Char).length = idx - 0 + 1 from by
                simp only [List.length_cons, List.length_nil]; omega]
            · show List.map toAsciiLower (List.take 7 (List.drop (idx - 6) comp)) = ['c', 'o', 'n', 'o', 'u', 't', '$']
              have he : List.map toAsciiLower (List.take 7 (List.drop (idx - 6) comp))
                  = lowSuffix comp (idx + 1) 7 := by
                unfold lowSuffix
                rw [show idx + 1 - 7 = idx - 6 from by omega]
              rw [he, show (7 : Nat) = 6 + 1 from rfl, lowSuffix_snoc (by omega) hdropc,
                hsuf2, hc2]
              rfl
          · -- LPT followed by a digit
            subst hs; subst hso; subst heo
            obtain ⟨hkle, hsuf⟩ := hinv
            have hkle2 : 3 ≤ idx := by simpa using hkle
            have hsuf2 : lowSuffix comp idx 3 = ['l', 'p', 't'] := by simpa using hsuf
            refine ⟨['l', 'p', 't', toAsciiLower c], lpt_mem hc2a hc2b, idx - 3, hl.symm, ?_, ?_⟩
            · rw [← hr]
              rw [show idx - 3 + (['l', 'p', 't', toAsciiLower c] : List Char).length = idx - 0 + 1 from by
                simp only [List.length_cons, List.length_nil]; omega]
            · show List.map toAsciiLower (List.take 4 (List.drop (idx - 3) comp)) = ['l', 'p', 't', toAsciiLower c]
              have he : List.map toAsciiLower (List.take 4 (List.drop (idx - 3) comp))
                  = lowSuffix comp (idx + 1) 4 := by
                unfold lowSuffix
                rw [show idx + 1 - 4 = idx - 3 from by omega]
              rw [he, show (4 : Nat) = 3 + 1 from rfl, lowSuffix_snoc (by omega) hdropc,
                hsuf2]
              rfl
    · rw [saGo_cons_na st (by simpa using ha)] at hrun
      exact ih (idx + 1) none l r hdrop2.symm trivial hrun

/-! ## Completeness of the automaton: running a qualifying occurrence -/

theorem map_eq_list3 {f : Char → Char} {l : List Char} {x0 x1 x2 : Char}
    (h : l.map f = [x0, x1, x2]) :
    ∃ a0 a1 a2, l = [a0, a1, a2] ∧ f a0 = x0 ∧ f a1 = x1 ∧ f a2 = x2 := by
  cases l with
  | nil => simp at h
  | cons a0 l1 =>
    cases l1 with
    | nil => simp at h
    | cons a1 l2 =>
      cases l2 with
      | nil => simp at h
      | cons a2 l3 =>
        cases l3 with
        | cons b lx => simp at h
        | nil =>
          simp only [List.map_cons, List.map_nil, List.cons.injEq, and_true] at h
          exact ⟨a0, a1, a2, rfl, h.1, h.2.1, h.2.2⟩

theorem map_eq_list4 {f : Char → Char} {l : List Char} {x0 x1 x2 x3 : Char}
    (h : l.map f = [x0, x1, x2, x3]) :
    ∃ a0 a1 a2 a3, l = [a0, a1, a2, a3] ∧ f a0 = x0 ∧ f a1 = x1 ∧ f a2 = x2 ∧ f a3 = x3 := by
  cases l with
  | nil => simp at h
  | cons a0 l1 =>
    cases l1 with
    | nil => simp at h
    | cons a1 l2 =>
      cases l2 with
      | nil => simp at h
      | cons a2 l3 =>
        cases l3 with
        | nil => simp at h
        | cons a3 l4 =>
          cases l4 with
          | cons b lx => simp at h
          | nil =>
            simp only [List.map_cons, List.map_nil, List.cons.injEq, and_true] at h
            exact ⟨a0, a1, a2, a3, rfl, h.1, h.2.1, h.2.2.1, h.2.2.2⟩

theorem map_eq_list6 {f : Char → Char} {l : List Char} {x0 x1 x2 x3 x4 x5 : Char}
    (h : l.map f = [x0, x1, x2, x3, x4, x5]) :
    ∃ a0 a1 a2 a3 a4 a5, l = [a0, a1, a2, a3, a4, a5] ∧ f a0 = x0 ∧ f a1 = x1 ∧ f a2 = x2 ∧ f a3 = x3 ∧ f a4 = x4 ∧ f a5 = x5 := by
  cases l with
  | nil => simp at h
  | cons a0 l1 =>
    cases l1 with
    | nil => simp at h
    | cons a1 l2 =>
      cases l2 with
      | nil => simp at h
      | cons a2 l3 =>
        cases l3 with
        | nil => simp at h
        | cons a3 l4 =>
          cases l4 with
          | nil => simp at h
          | cons a4 l5 =>
            cases l5 with
            | nil => simp at h
            | cons a5 l6 =>
              cases l6 with
              | cons b lx => simp at h
              | nil =>
                simp only [List.map_cons, List.map_nil, List.cons.injEq, and_true] at h
                exact ⟨a0, a1, a2, a3, a4, a5, rfl, h.1, h.2.1, h.2.2.1, h.2.2.2.1, h.2.2.2.2.1, h.2.2.2.2.2⟩

theorem map_eq_list7 {f : Char → Char} {l : List Char} {x0 x1 x2 x3 x4 x5 x6 : Char}
    (h : l.map f = [x0, x1, x2, x3, x4, x5, x6]) :
    ∃ a0 a1 a2 a3 a4 a5 a6, l = [a0, a1, a2, a3, a4, a5, a6] ∧ f a0 = x0 ∧ f a1 = x1 ∧ f a2 = x2 ∧ f a3 = x3 ∧ f a4 = x4 ∧ f a5 = x5 ∧ f a6 = x6 := by
  cases l with
  | nil => simp at h
  | cons a0 l1 =>
    cases l1 with
    | nil => simp at h
    | cons a1 l2 =>
      cases l2 with
      | nil => simp at h
      | cons a2 l3 =>
        cases l3 with
        | nil => simp at h
        | cons a3 l4 =>
          cases l4 with
          | nil => simp at h
          | cons a4 l5 =>
            cases l5 with
            | nil => simp at h
            | cons a5 l6 =>
              cases l6 with
              | nil => simp at h
              | cons a6 l7 =>
                cases l7 with
                | cons b lx => simp at h
                | nil =>
                  simp only [List.map_cons, List.map_nil, List.cons.injEq, and_true] at h
                  exact ⟨a0, a1, a2, a3, a4, a5, a6, rfl, h.1, h.2.1, h.2.2.1, h.2.2.2.1, h.2.2.2.2.1, h.2.2.2.2.2.1, h.2.2.2.2.2.2⟩

theorem saGo_ws_prefix (comp : List Char) :
    ∀ (ws : List Char) (rest : List Char) (idx : Nat),
    (∀ c ∈ ws, rustIsWhitespace c = true) →
    saGo comp (ws ++ rest) idx none = saGo comp rest (idx + ws.length) none := by
  intro ws
  induction ws with
  | nil => intro rest idx _; simp
  | cons c ws2 ih =>
    intro rest idx h
    rw [List.cons_append]
    have hlen : idx + 1 + ws2.length = idx + (c :: ws2).length := by simp; omega
    by_cases ha : isAsciiChar c
    · rw [saGo_cons_none ha, restart_ws (h c (by simp)) ha,
        ih rest (idx + 1) (fun x hx => h x (by simp [hx])), hlen]
    · rw [saGo_cons_na none (by simpa using ha),
        ih rest (idx + 1) (fun x hx => h x (by simp [hx])), hlen]

theorem saGo_run_aux {comp rest : List Char} {idx : Nat} {c0 c1 c2 : Char}
    (h0 : toAsciiLower c0 = 'a') (h1 : toAsciiLower c1 = 'u') (h2 : toAsciiLower c2 = 'x') :
    saGo comp (c0 :: c1 :: c2 :: rest) idx none
      = some (comp.take idx, comp.drop (idx + 3)) := by
  have ha0 : isAsciiChar c0 = true := isAscii_of_toAsciiLower_le (by rw [h0]; decide)
  have ha1 : isAsciiChar c1 = true := isAscii_of_toAsciiLower_le (by rw [h1]; decide)
  have ha2 : isAsciiChar c2 = true := isAscii_of_toAsciiLower_le (by rw [h2]; decide)
  rw [saGo_cons_none ha0, h0,
    show restart 'a' = some (ReservedName.AUX AUX.A) from rfl,
    saGo_step_accept ha1
      (show (ReservedName.AUX AUX.A).accept (toAsciiLower c1)
        = .Accepted (ReservedName.AUX AUX.U) from by rw [h1]; rfl),
    saGo_step_finished ha2
      (show (ReservedName.AUX AUX.U).accept (toAsciiLower c2)
        = .AcceptedAndFinished 2 0 from by rw [h2]; rfl)]
  unfold splitImpl
  rw [show idx + 1 + 1 - 2 = idx from by omega,
    show idx + 1 + 1 - 0 + 1 = idx + 3 from by omega]

theorem saGo_run_nul {comp rest : List Char} {idx : Nat} {c0 c1 c2 : Char}
    (h0 : toAsciiLower c0 = 'n') (h1 : toAsciiLower c1 = 'u') (h2 : toAsciiLower c2 = 'l') :
    saGo comp (c0 :: c1 :: c2 :: rest) idx none
      = some (comp.take idx, comp.drop (idx + 3)) := by
  have ha0 : isAsciiChar c0 = true := isAscii_of_toAsciiLower_le (by rw [h0]; decide)
  have ha1 : isAsciiChar c1 = true := isAscii_of_toAsciiLower_le (by rw [h1]; decide)
  have ha2 : isAsciiChar c2 = true := isAscii_of_toAsciiLower_le (by rw [h2]; decide)
  rw [saGo_cons_none ha0, h0,
    show restart 'n' = some (ReservedName.NUL NUL.N) from rfl,
    saGo_step_accept ha1
      (show (ReservedName.NUL NUL.N).accept (toAsciiLower c1)
        = .Accepted (ReservedName.NUL NUL.U) from by rw [h1]; rfl),
    saGo_step_finished ha2
      (show (ReservedName.NUL NUL.U).accept (toAsciiLower c2)
        = .AcceptedAndFinished 2 0 from by rw [h2]; rfl)]
  unfold splitImpl
  rw [show idx + 1 + 1 - 2 = idx from by omega,
    show idx + 1 + 1 - 0 + 1 = idx + 3 from by omega]

theorem saGo_run_prn {comp rest : List Char} {idx : Nat} {c0 c1 c2 : Char}
    (h0 : toAsciiLower c0 = 'p') (h1 : toAsciiLower c1 = 'r') (h2 : toAsciiLower c2 = 'n') :
    saGo comp (c0 :: c1 :: c2 :: rest) idx none
      = some (comp.take idx, comp.drop (idx + 3)) := by
  have ha0 : isAsciiChar c0 = true := isAscii_of_toAsciiLower_le (by rw [h0]; decide)
  have ha1 : isAsciiChar c1 = true := isAscii_of_toAsciiLower_le (by rw [h1]; decide)
  have ha2 : isAsciiChar c2 = true := isAscii_of_toAsciiLower_le (by rw [h2]; decide)
  rw [saGo_cons_none ha0, h0,
    show restart 'p' = some (ReservedName.PRN PRN.P) from rfl,
    saGo_step_accept ha1
      (show (ReservedName.PRN PRN.P).accept (toAsciiLower c1)
        = .Accepted (ReservedName.PRN PRN.R) from by rw [h1]; rfl),
    saGo_step_finished ha2
      (show (ReservedName.PRN PRN.R).accept (toAsciiLower c2)
        = .AcceptedAndFinished 2 0 from by rw [h2]; rfl)]
  unfold splitImpl
  rw [show idx + 1 + 1 - 2 = idx from by omega,
    show idx + 1 + 1 - 0 + 1 = idx + 3 from by omega]

theorem saGo_run_con_end {comp : List Char} {idx : Nat} {c0 c1 c2 : Char}
    (h0 : toAsciiLower c0 = 'c') (h1 : toAsciiLower c1 = 'o') (h2 : toAsciiLower c2 = 'n') :
    saGo comp [c0, c1, c2] idx none
      = some (comp.take idx, comp.drop (idx + 3)) := by
  have ha0 : isAsciiChar c0 = true := isAscii_of_toAsciiLower_le (by rw [h0]; decide)
  have ha1 : isAsciiChar c1 = true := isAscii_of_toAsciiLower_le (by rw [h1]; decide)
  have ha2 : isAsciiChar c2 = true := isAscii_of_toAsciiLower_le (by rw [h2]; decide)
  rw [saGo_cons_none ha0, h0,
    show restart 'c' = some (ReservedName.CONOrMOrINOrOUT CONOrMOrINOrOUT.C) from rfl,
    saGo_step_accept ha1
      (show (ReservedName.CONOrMOrINOrOUT CONOrMOrINOrOUT.C).accept (toAsciiLower c1)
        = .Accepted (ReservedName.CONOrMOrINOrOUT CONOrMOrINOrOUT.O) from by rw [h1]; rfl),
    saGo_step_accept ha2
      (show (ReservedName.CONOrMOrINOrOUT CONOrMOrINOrOUT.O).accept (toAsciiLower c2)
        = .Accepted (ReservedName.CONOrMOrINOrOUT CONOrMOrINOrOUT.N) from by rw [h2]; rfl),
    saGo_nil]
  rw [show (some (ReservedName.CONOrMOrINOrOUT CONOrMOrINOrOUT.N)).bind ReservedName.finish
    = some (2, 0) from rfl]
  simp only [Option.map_some']
  unfold splitImpl
  rw [show idx + 1 + 1 + 1 - 1 - 2 = idx from by omega,
    show idx + 1 + 1 + 1 - 1 - 0 + 1 = idx + 3 from by omega]

theorem saGo_run_con_mid {comp rest : List Char} {idx : Nat} {c0 c1 c2 c3 : Char}
    (h0 : toAsciiLower c0 = 'c') (h1 : toAsciiLower c1 = 'o') (h2 : toAsciiLower c2 = 'n')
    (ha3 : isAsciiChar c3 = true)
    (h3i : toAsciiLower c3 ≠ 'i') (h3o : toAsciiLower c3 ≠ 'o') :
    saGo comp (c0 :: c1 :: c2 :: c3 :: rest) idx none
      = some (comp.take idx, comp.drop (idx + 3)) := by
  have ha0 : isAsciiChar c0 = true := isAscii_of_toAsciiLower_le (by rw [h0]; decide)
  have ha1 : isAsciiChar c1 = true := isAscii_of_toAsciiLower_le (by rw [h1]; decide)
  have ha2 : isAsciiChar c2 = true := isAscii_of_toAsciiLower_le (by rw [h2]; decide)
  rw [saGo_cons_none ha0, h0,
    show restart 'c' = some (ReservedName.CONOrMOrINOrOUT CONOrMOrINOrOUT.C) from rfl,
    saGo_step_accept ha1
      (show (ReservedName.CONOrMOrINOrOUT CONOrMOrINOrOUT.C).accept (toAsciiLower c1)
        = .Accepted (ReservedName.CONOrMOrINOrOUT CONOrMOrINOrOUT.O) from by rw [h1]; rfl),
    saGo_step_accept ha2
      (show (ReservedName.CONOrMOrINOrOUT CONOrMOrINOrOUT.O).accept (toAsciiLower c2)
        = .Accepted (ReservedName.CONOrMOrINOrOUT CONOrMOrINOrOUT.N) from by rw [h2]; rfl),
    saGo_step_finished ha3
      (show (ReservedName.CONOrMOrINOrOUT CONOrMOrINOrOUT.N).accept (toAsciiLower c3)
        = .AcceptedAndFinished 3 1 from by
          simp only [ReservedName.accept, CONOrMOrINOrOUT.accept]
          rw [if_neg h3i, if_neg h3o]
          rfl)]
  unfold splitImpl
  rw [show idx + 1 + 1 + 1 - 3 = idx from by omega,
    show idx + 1 + 1 + 1 - 1 + 1 = idx + 3 from by omega]

theorem saGo_run_com {comp rest : List Char} {idx : Nat} {c0 c1 c2 c3 : Char}
    (h0 : toAsciiLower c0 = 'c') (h1 : toAsciiLower c1 = 'o') (h2 : toAsciiLower c2 = 'm')
    (h3a : '1' ≤ toAsciiLower c3) (h3b : toAsciiLower c3 ≤ '9') :
    saGo comp (c0 :: c1 :: c2 :: c3 :: rest) idx none
      = some (comp.take idx, comp.drop (idx + 4)) := by
  have ha0 : isAsciiChar c0 = true := isAscii_of_toAsciiLower_le (by rw [h0]; decide)
  have ha1 : isAsciiChar c1 = true := isAscii_of_toAsciiLower_le (by rw [h1]; decide)
  have ha2 : isAsciiChar c2 = true := isAscii_of_toAsciiLower_le (by rw [h2]; decide)
  have ha3 : isAsciiChar c3 = true := isAscii_of_toAsciiLower_le (by
    have h9 := char_le_iff_toNat.mp h3b
    rw [show ('9' : Char).toNat = 57 from rfl] at h9
    omega)
  rw [saGo_cons_none ha0, h0,
    show restart 'c' = some (ReservedName.CONOrMOrINOrOUT CONOrMOrINOrOUT.C) from rfl,
    saGo_step_accept ha1
      (show (ReservedName.CONOrMOrINOrOUT CONOrMOrINOrOUT.C).accept (toAsciiLower c1)
        = .Accepted (ReservedName.CONOrMOrINOrOUT CONOrMOrINOrOUT.O) from by rw [h1]; rfl),
    saGo_step_accept ha2
      (show (ReservedName.CONOrMOrINOrOUT CONOrMOrINOrOUT.O).accept (toAsciiLower c2)
        = .Accepted (ReservedName.CONOrMOrINOrOUT CONOrMOrINOrOUT.M) from by rw [h2]; rfl),
    saGo_step_finished ha3
      (show (ReservedName.CONOrMOrINOrOUT CONOrMOrINOrOUT.M).accept (toAsciiLower c3)
        = .AcceptedAndFinished 3 0 from by
          simp only [ReservedName.accept, CONOrMOrINOrOUT.accept]
          rw [if_pos ⟨h3a, h3b⟩]
          rfl)]
  unfold splitImpl
  rw [show idx + 1 + 1 + 1 - 3 = idx from by omega,
    show idx + 1 + 1 + 1 - 0 + 1 = idx + 4 from by omega]

theorem saGo_run_lpt {comp rest : List Char} {idx : Nat} {c0 c1 c2 c3 : Char}
    (h0 : toAsciiLower c0 = 'l') (h1 : toAsciiLower c1 = 'p') (h2 : toAsciiLower c2 = 't')
    (h3a : '1' ≤ toAsciiLower c3) (h3b : toAsciiLower c3 ≤ '9') :
    saGo comp (c0 :: c1 :: c2 :: c3 :: rest) idx none
      = some (comp.take idx, comp.drop (idx + 4)) := by
  have ha0 : isAsciiChar c0 = true := isAscii_of_toAsciiLower_le (by rw [h0]; decide)
  have ha1 : isAsciiChar c1 = true := isAscii_of_toAsciiLower_le (by rw [h1]; decide)
  have ha2 : isAsciiChar c2 = true := isAscii_of_toAsciiLower_le (by rw [h2]; decide)
  have ha3 : isAsciiChar c3 = true := isAscii_of_toAsciiLower_le (by
    have h9 := char_le_iff_toNat.mp h3b
    rw [show ('9' : Char).toNat = 57 from rfl] at h9
    omega)
  rw [saGo_cons_none ha0, h0,
    show restart 'l' = some (ReservedName.LPT LPT.L) from rfl,
    saGo_step_accept ha1
      (show (ReservedName.LPT LPT.L).accept (toAsciiLower c1)
        = .Accepted (ReservedName.LPT LPT.P) from by rw [h1]; rfl),
    saGo_step_accept ha2
      (show (ReservedName.LPT LPT.P).accept (toAsciiLower c2)
        = .Accepted (ReservedName.LPT LPT.T) from by rw [h2]; rfl),
    saGo_step_finished ha3
      (show (ReservedName.LPT LPT.T).accept (toAsciiLower c3)
        = .AcceptedAndFinished 3 0 from by
          simp only [ReservedName.accept, LPT.accept]
          rw [if_pos ⟨h3a, h3b⟩]
          rfl)]
  unfold splitImpl
  rw [show idx + 1 + 1 + 1 - 3 = idx from by omega,
    show idx + 1 + 1 + 1 - 0 + 1 = idx + 4 from by omega]

theorem saGo_run_conin {comp rest : List Char} {idx : Nat} {c0 c1 c2 c3 c4 c5 : Char}
    (h0 : toAsciiLower c0 = 'c') (h1 : toAsciiLower c1 = 'o') (h2 : toAsciiLower c2 = 'n')
    (h3 : toAsciiLower c3 = 'i') (h4 : toAsciiLower c4 = 'n') (h5 : toAsciiLower c5 = '$') :
    saGo comp (c0 :: c1 :: c2 :: c3 :: c4 :: c5 :: rest) idx none
      = some (comp.take idx, comp.drop (idx + 6)) := by
  have ha0 : isAsciiChar c0 = true := isAscii_of_toAsciiLower_le (by rw [h0]; decide)
  have ha1 : isAsciiChar c1 = true := isAscii_of_toAsciiLower_le (by rw [h1]; decide)
  have ha2 : isAsciiChar c2 = true := isAscii_of_toAsciiLower_le (by rw [h2]; decide)
  have ha3 : isAsciiChar c3 = true := isAscii_of_toAsciiLower_le (by rw [h3]; decide)
  have ha4 : isAsciiChar c4 = true := isAscii_of_toAsciiLower_le (by rw [h4]; decide)
  have ha5 : isAsciiChar c5 = true := isAscii_of_toAsciiLower_le (by rw [h5]; decide)
  rw [saGo_cons_none ha0, h0,
    show restart 'c' = some (ReservedName.CONOrMOrINOrOUT CONOrMOrINOrOUT.C) from rfl,
    saGo_step_accept ha1
      (show (ReservedName.CONOrMOrINOrOUT CONOrMOrINOrOUT.C).accept (toAsciiLower c1)
        = .Accepted (ReservedName.CONOrMOrINOrOUT CONOrMOrINOrOUT.O) from by rw [h1]; rfl),
    saGo_step_accept ha2
      (show (ReservedName.CONOrMOrINOrOUT CONOrMOrINOrOUT.O).accept (toAsciiLower c2)
        = .Accepted (ReservedName.CONOrMOrINOrOUT CONOrMOrINOrOUT.N) from by rw [h2]; rfl),
    saGo_step_accept ha3
      (show (ReservedName.CONOrMOrINOrOUT CONOrMOrINOrOUT.N).accept (toAsciiLower c3)
        = .Accepted (ReservedName.CONOrMOrINOrOUT CONOrMOrINOrOUT.NI) from by rw [h3]; rfl),
    saGo_step_accept ha4
      (show (ReservedName.CONOrMOrINOrOUT CONOrMOrINOrOUT.NI).accept (toAsciiLower c4)
        = .Accepted (ReservedName.CONOrMOrINOrOUT CONOrMOrINOrOUT.NIN) from by rw [h4]; rfl),
    saGo_step_finished ha5
      (show (ReservedName.CONOrMOrINOrOUT CONOrMOrINOrOUT.NIN).accept (toAsciiLower c5)
        = .AcceptedAndFinished 5 0 from by rw [h5]; rfl)]
  unfold splitImpl
  rw [show idx + 1 + 1 + 1 + 1 + 1 - 5 = idx from by omega,
    show idx + 1 + 1 + 1 + 1 + 1 - 0 + 1 = idx + 6 from by omega]

theorem saGo_run_conout {comp rest : List Char} {idx : Nat} {c0 c1 c2 c3 c4 c5 c6 : Char}
    (h0 : toAsciiLower c0 = 'c') (h1 : toAsciiLower c1 = 'o') (h2 : toAsciiLower c2 = 'n')
    (h3 : toAsciiLower c3 = 'o') (h4 : toAsciiLower c4 = 'u') (h5 : toAsciiLower c5 = 't')
    (h6 : toAsciiLower c6 = '$') :
    saGo comp (c0 :: c1 :: c2 :: c3 :: c4 :: c5 :: c6 :: rest) idx none
      = some (comp.take idx, comp.drop (idx + 7)) := by
  have ha0 : isAsciiChar c0 = true := isAscii_of_toAsciiLower_le (by rw [h0]; decide)
  have ha1 : isAsciiChar c1 = true := isAscii_of_toAsciiLower_le (by rw [h1]; decide)
  have ha2 : isAsciiChar c2 = true := isAscii_of_toAsciiLower_le (by rw [h2]; decide)
  have ha3 : isAsciiChar c3 = true := isAscii_of_toAsciiLower_le (by rw [h3]; decide)
  have ha4 : isAsciiChar c4 = true := isAscii_of_toAsciiLower_le (by rw [h4]; decide)
  have ha5 : isAsciiChar c5 = true := isAscii_of_toAsciiLower_le (by rw [h5]; decide)
  have ha6 : isAsciiChar c6 = true := isAscii_of_toAsciiLower_le (by rw [h6]; decide)
  rw [saGo_cons_none ha0, h0,
    show restart 'c' = some (ReservedName.CONOrMOrINOrOUT CONOrMOrINOrOUT.C) from rfl,
    saGo_step_accept ha1
      (show (ReservedName.CONOrMOrINOrOUT CONOrMOrINOrOUT.C).accept (toAsciiLower c1)
        = .Accepted (ReservedName.CONOrMOrINOrOUT CONOrMOrINOrOUT.O) from by rw [h1]; rfl),
    saGo_step_accept ha2
      (show (ReservedName.CONOrMOrINOrOUT CONOrMOrINOrOUT.O).accept (toAsciiLower c2)
        = .Accepted (ReservedName.CONOrMOrINOrOUT CONOrMOrINOrOUT.N) from by rw [h2]; rfl),
    saGo_step_accept ha3
      (show (ReservedName.CONOrMOrINOrOUT CONOrMOrINOrOUT.N).accept (toAsciiLower c3)
        = .Accepted (ReservedName.CONOrMOrINOrOUT CONOrMOrINOrOUT.NO) from by rw [h3]; rfl),
    saGo_step_accept ha4
      (show (ReservedName.CONOrMOrINOrOUT CONOrMOrINOrOUT.NO).accept (toAsciiLower c4)
        = .Accepted (ReservedName.CONOrMOrINOrOUT CONOrMOrINOrOUT.NOU) from by rw [h4]; rfl),
    saGo_step_accept ha5
      (show (ReservedName.CONOrMOrINOrOUT CONOrMOrINOrOUT.NOU).accept (toAsciiLower c5)
        = .Accepted (ReservedName.CONOrMOrINOrOUT CONOrMOrINOrOUT.NOUT) from by rw [h5]; rfl),
    saGo_step_finished ha6
      (show (ReservedName.CONOrMOrINOrOUT CONOrMOrINOrOUT.NOUT).accept (toAsciiLower c6)
        = .AcceptedAndFinished 6 0 from by rw [h6]; rfl)]
  unfold splitImpl
  rw [show idx + 1 + 1 + 1 + 1 + 1 + 1 - 6 = idx from by omega,
    show idx + 1 + 1 + 1 + 1 + 1 + 1 - 0 + 1 = idx + 7 from by omega]

/-! ## Equivalence of the automaton with the naive reference search -/

theorem digit_of_mem {d : Char} (h : d ∈ digitChars) : '1' ≤ d ∧ d ≤ '9' := by
  fin_cases h <;> exact ⟨by decide, by decide⟩

theorem mem_reservedNames_cases {nm : List Char} (h : nm ∈ reservedNamesList) :
    nm = ['a', 'u', 'x'] ∨ nm = ['c', 'o', 'n'] ∨ nm = ['p', 'r', 'n'] ∨
    nm = ['n', 'u', 'l'] ∨ nm = ['c', 'o', 'n', 'i', 'n', '$'] ∨
    nm = ['c', 'o', 'n', 'o', 'u', 't', '$'] ∨
    (∃ d, ('1' ≤ d ∧ d ≤ '9') ∧ nm = ['c', 'o', 'm', d]) ∨
    (∃ d, ('1' ≤ d ∧ d ≤ '9') ∧ nm = ['l', 'p', 't', d]) := by
  unfold reservedNamesList at h
  rcases List.mem_append.mp h with h1 | hlpt
  · rcases List.mem_append.mp h1 with hbase | hcom
    · simp only [List.mem_cons, List.not_mem_nil, or_false] at hbase
      rcases hbase with rfl | rfl | rfl | rfl | rfl | rfl
      · exact Or.inl (by decide)
      · exact Or.inr (Or.inl (by decide))
      · exact Or.inr (Or.inr (Or.inl (by decide)))
      · exact Or.inr (Or.inr (Or.inr (Or.inl (by decide))))
      · exact Or.inr (Or.inr (Or.inr (Or.inr (Or.inl (by decide)))))
      · exact Or.inr (Or.inr (Or.inr (Or.inr (Or.inr (Or.inl (by decide))))))
    · obtain ⟨d, hd, heq⟩ := List.mem_map.mp hcom
      exact Or.inr (Or.inr (Or.inr (Or.inr (Or.inr (Or.inr (Or.inl
        ⟨d, digit_of_mem hd, heq.symm⟩))))))
  · obtain ⟨d, hd, heq⟩ := List.mem_map.mp hlpt
    exact Or.inr (Or.inr (Or.inr (Or.inr (Or.inr (Or.inr (Or.inr
      ⟨d, digit_of_mem hd, heq.symm⟩))))))

theorem reservedHit_imp_hasQual {comp : List Char} (hhit : reservedHit comp = true) :
    hasQualReserved comp = true := by
  unfold reservedHit at hhit
  cases hsp : split_at_reserved_name comp with
  | none => rw [hsp] at hhit; simp at hhit
  | some p =>
    obtain ⟨l, r⟩ := p
    rw [hsp] at hhit
    obtain ⟨nm, hnm, i, hl, hr, hocc⟩ :=
      saGo_sound comp comp 0 none l r (by simp) trivial hsp
    have hnmlen : 1 ≤ nm.length := by
      rcases mem_reservedNames_cases hnm with
        rfl | rfl | rfl | rfl | rfl | rfl | ⟨d, _, rfl⟩ | ⟨d, _, rfl⟩ <;> simp
    have hlen : i + nm.length ≤ comp.length := by
      have hc := congrArg List.length hocc
      simp only [List.length_map, List.length_take, List.length_drop] at hc
      omega
    unfold hasQualReserved
    rw [List.any_eq_true]
    refine ⟨i, List.mem_range.mpr (by omega), ?_⟩
    rw [List.any_eq_true]
    refine ⟨nm, hnm, ?_⟩
    unfold occursQualAt
    subst hl
    subst hr
    simp only [Bool.and_eq_true, Bool.or_eq_true, decide_eq_true_eq, beq_iff_eq] at hhit ⊢
    exact ⟨⟨hocc, hhit.1⟩, hhit.2⟩

theorem not_ws_of_visible {c : Char} (h1 : 33 ≤ c.toNat) (h2 : c.toNat ≤ 126) :
    rustIsWhitespace c = false := by
  rw [Bool.eq_false_iff]
  intro hws
  simp only [rustIsWhitespace, Bool.or_eq_true, Bool.and_eq_true, decide_eq_true_eq] at hws
  omega

theorem con_follower_contradiction {c3 : Char} {after2 : List Char}
    (hA : 65 ≤ c3.toNat) (hB : c3.toNat ≤ 122) (hC : c3.toNat ≠ 46)
    (hright : trimStart (c3 :: after2) = [] ∨
      (trimStart (c3 :: after2)).head? = some '.') : False := by
  have hnws := not_ws_of_visible (c := c3) (by omega) (by omega)
  rw [trimStart_cons_not_ws hnws] at hright
  rcases hright with h2 | h2
  · simp at h2
  · simp only [List.head?_cons, Option.some.injEq] at h2
    have : c3.toNat = 46 := by rw [h2]; rfl
    exact hC this

theorem drop_take_split (comp : List Char) (i k : Nat) :
    comp.drop i = (comp.drop i).take k ++ comp.drop (i + k) := by
  conv_lhs => rw [← List.take_append_drop k (comp.drop i)]
  rw [List.drop_drop, Nat.add_comm]

theorem hasQual_imp_reservedHit {comp : List Char}
    (hascii : ∀ ch ∈ comp, isAsciiChar ch = true)
    (hq : hasQualReserved comp = true) : reservedHit comp = true := by
  unfold hasQualReserved at hq
  rw [List.any_eq_true] at hq
  obtain ⟨i, hirange, hq2⟩ := hq
  rw [List.any_eq_true] at hq2
  obtain ⟨nm, hnm, hocc⟩ := hq2
  unfold occursQualAt at hocc
  simp only [Bool.and_eq_true, Bool.or_eq_true, beq_iff_eq] at hocc
  obtain ⟨⟨hocc1, hleft⟩, hright⟩ := hocc
  have hi : i < comp.length := List.mem_range.mp hirange
  have hlen : i + nm.length ≤ comp.length := by
    have hc := congrArg List.length hocc1
    simp only [List.length_map, List.length_take, List.length_drop] at hc
    omega
  have hws : ∀ ch ∈ comp.take i, rustIsWhitespace ch = true :=
    trimEnd_eq_nil_iff.mp hleft
  have hleni : (comp.take i).length = i := by
    rw [List.length_take]
    omega
  have hpre : saGo comp comp 0 none = saGo comp (comp.drop i) i none := by
    have hstep := saGo_ws_prefix comp (comp.take i) (comp.drop i) 0 hws
    rw [List.take_append_drop, hleni, Nat.zero_add] at hstep
    exact hstep
  have hgoal : split_at_reserved_name comp
      = some (comp.take i, comp.drop (i + nm.length)) := by
    unfold split_at_reserved_name
    rw [hpre]
    rcases mem_reservedNames_cases hnm with
      rfl | rfl | rfl | rfl | rfl | rfl | ⟨d, hd, rfl⟩ | ⟨d, hd, rfl⟩
    · obtain ⟨c0, c1, c2, hocceq, h0, h1, h2⟩ := map_eq_list3 hocc1
      rw [drop_take_split comp i 3,
        show (comp.drop i).take 3 = [c0, c1, c2] from hocceq]
      exact saGo_run_aux h0 h1 h2
    · obtain ⟨c0, c1, c2, hocceq, h0, h1, h2⟩ := map_eq_list3 hocc1
      cases hafter : comp.drop (i + 3) with
      | nil =>
        rw [drop_take_split comp i 3,
          show (comp.drop i).take 3 = [c0, c1, c2] from hocceq, hafter,
          List.append_nil]
        exact saGo_run_con_end h0 h1 h2
      | cons c3 after2 =>
        have hright2 : trimStart (c3 :: after2) = [] ∨
            (trimStart (c3 :: after2)).head? = some '.' := by
          rw [← hafter]
          exact hright
        have hc3comp : c3 ∈ comp := by
          refine List.drop_subset (i + 3) comp ?_
          rw [hafter]
          exact List.mem_cons_self c3 after2
        have ha3 := hascii c3 hc3comp
        have h3i : toAsciiLower c3 ≠ 'i' := by
          intro hct
          rcases (toAsciiLower_eq_iff (by decide)).mp hct with rfl | hteq
          · exact con_follower_contradiction (by decide) (by decide) (by decide) hright2
          · rw [show ('i' : Char).toNat = 105 from rfl] at hteq
            exact con_follower_contradiction (by omega) (by omega) (by omega) hright2
        have h3o : toAsciiLower c3 ≠ 'o' := by
          intro hct
          rcases (toAsciiLower_eq_iff (by decide)).mp hct with rfl | hteq
          · exact con_follower_contradiction (by decide) (by decide) (by decide) hright2
          · rw [show ('o' : Char).toNat = 111 from rfl] at hteq
            exact con_follower_contradiction (by omega) (by omega) (by omega) hright2
        rw [drop_take_split comp i 3,
          show (comp.drop i).take 3 = [c0, c1, c2] from hocceq, hafter]
        exact saGo_run_con_mid h0 h1 h2 ha3 h3i h3o
    · obtain ⟨c0, c1, c2, hocceq, h0, h1, h2⟩ := map_eq_list3 hocc1
      rw [drop_take_split comp i 3,
        show (comp.drop i).take 3 = [c0, c1, c2] from hocceq]
      exact saGo_run_prn h0 h1 h2
    · obtain ⟨c0, c1, c2, hocceq, h0, h1, h2⟩ := map_eq_list3 hocc1
      rw [drop_take_split comp i 3,
        show (comp.drop i).take 3 = [c0, c1, c2] from hocceq]
      exact saGo_run_nul h0 h1 h2
    · obtain ⟨c0, c1, c2, c3, c4, c5, hocceq, h0, h1, h2, h3, h4, h5⟩ := map_eq_list6 hocc1
      rw [drop_take_split comp i 6,
        show (comp.drop i).take 6 = [c0, c1, c2, c3, c4, c5] from hocceq]
      exact saGo_run_conin h0 h1 h2 h3 h4 h5
    · obtain ⟨c0, c1, c2, c3, c4, c5, c6, hocceq, h0, h1, h2, h3, h4, h5, h6⟩ :=
        map_eq_list7 hocc1
      rw [drop_take_split comp i 7,
        show (comp.drop i).take 7 = [c0, c1, c2, c3, c4, c5, c6] from hocceq]
      exact saGo_run_conout h0 h1 h2 h3 h4 h5 h6
    · obtain ⟨c0, c1, c2, c3, hocceq, h0, h1, h2, h3⟩ := map_eq_list4 hocc1
      rw [drop_take_split comp i 4,
        show (comp.drop i).take 4 = [c0, c1, c2, c3] from hocceq]
      exact saGo_run_com h0 h1 h2 (by rw [h3]; exact hd.1) (by rw [h3]; exact hd.2)
    · obtain ⟨c0, c1, c2, c3, hocceq, h0, h1, h2, h3⟩ := map_eq_list4 hocc1
      rw [drop_take_split comp i 4,
        show (comp.drop i).take 4 = [c0, c1, c2, c3] from hocceq]
      exact saGo_run_lpt h0 h1 h2 (by rw [h3]; exact hd.1) (by rw [h3]; exact hd.2)
  unfold reservedHit
  rw [hgoal]
  rcases hright with h2 | h2
  · simp [hleft, h2]
  · simp [hleft, h2]

theorem reservedHit_eq_hasQual {comp : List Char}
    (hascii : ∀ ch ∈ comp, isAsciiChar ch = true) :
    reservedHit comp = hasQualReserved comp := by
  cases hh : reservedHit comp with
  | true => exact (reservedHit_imp_hasQual hh).symm
  | false =>
    cases hq : hasQualReserved comp with
    | true => rw [← hh, hasQual_imp_reservedHit hascii hq]
    | false => rfl

/-! ## Branch evaluation lemmas for the component validator -/

theorem validate_eval_too_long {c : List Char} {ctx : List PathComp}
    (h : byteLen c > MAX_COMPONENT_LEN) :
    validate_normal_path_component c ctx = .error (.ComponentTooLong ctx (byteLen c)) := by
  unfold validate_normal_path_component
  rw [if_pos h]

theorem validate_eval_period {c : List Char} {ctx : List PathComp}
    (h1 : byteLen c ≤ MAX_COMPONENT_LEN) (h2 : c.getLast? = some '.') :
    validate_normal_path_component c ctx = .error (.ComponentEndsWithAPeriod ctx) := by
  unfold validate_normal_path_component
  rw [if_neg (by omega), if_pos h2]

theorem validate_eval_space {c : List Char} {ctx : List PathComp}
    (h1 : byteLen c ≤ MAX_COMPONENT_LEN) (h2 : c.getLast? ≠ some '.')
    (h3 : c.getLast? = some ' ') :
    validate_normal_path_component c ctx = .error (.ComponentEndsWithASpace ctx) := by
  unfold validate_normal_path_component
  rw [if_neg (by omega), if_neg h2, if_pos h3]

theorem validate_eval_invalid {c : List Char} {ctx : List PathComp} {ch : Char}
    (h1 : byteLen c ≤ MAX_COMPONENT_LEN) (h2 : c.getLast? ≠ some '.')
    (h3 : c.getLast? ≠ some ' ') (h4 : c.find? isInvalidChar = some ch) :
    validate_normal_path_component c ctx = .error (.InvalidCharacter ctx ch) := by
  unfold validate_normal_path_component
  rw [if_neg (by omega), if_neg h2, if_neg h3, h4]

theorem validate_eval_reserved {c : List Char} {ctx : List PathComp}
    (h1 : byteLen c ≤ MAX_COMPONENT_LEN) (h2 : c.getLast? ≠ some '.')
    (h3 : c.getLast? ≠ some ' ') (h4 : c.find? isInvalidChar = none)
    (h5 : reservedHit c = true) :
    validate_normal_path_component c ctx = .error (.ReservedName ctx) := by
  unfold validate_normal_path_component
  rw [if_neg (by omega), if_neg h2, if_neg h3, h4]
  show (if reservedHit c then Except.error (FilePathError.ReservedName ctx)
    else Except.ok ()) = _
  rw [if_pos h5]

theorem validate_eval_ok {c : List Char} {ctx : List PathComp}
    (h1 : byteLen c ≤ MAX_COMPONENT_LEN) (h2 : c.getLast? ≠ some '.')
    (h3 : c.getLast? ≠ some ' ') (h4 : c.find? isInvalidChar = none)
    (h5 : reservedHit c = false) :
    validate_normal_path_component c ctx = .ok () := by
  unfold validate_normal_path_component
  rw [if_neg (by omega), if_neg h2, if_neg h3, h4]
  show (if reservedHit c then Except.error (FilePathError.ReservedName ctx)
    else Except.ok ()) = _
  rw [if_neg (by simp [h5])]

/-! ## Arithmetic helpers for canonical lengths of uniform paths -/

theorem canonLen_replicate_single {n : Nat} (h : 1 ≤ n) :
    canonLen (List.replicate n (['a'] : List Char)) = 2 * n - 1 := by
  cases n with
  | zero => omega
  | succ m =>
    rw [List.replicate_succ, canonLen_cons _ (by simp)]
    have h1 : byteLen (['a'] : List Char) = 1 := rfl
    have h2 : (List.replicate m (['a'] : List Char)).map (fun d => 1 + byteLen d)
        = List.replicate m 2 := by
      rw [List.map_replicate]
      exact congrArg (List.replicate m) (by rfl)
    rw [h1, h2, List.sum_replicate, smul_eq_mul]
    omega

theorem sum_ge_two_mul {cs : List (List Char)} (h : ∀ c ∈ cs, c ≠ []) :
    2 * cs.length ≤ (cs.map fun d => 1 + byteLen d).sum := by
  induction cs with
  | nil => simp
  | cons c cs ih =>
    have h1 := byteLen_pos (h c (by simp))
    have h2 := ih (fun x hx => h x (by simp [hx]))
    simp only [List.map_cons, List.sum_cons, List.length_cons]
    omega

/-! ## Stem / extension splitting -/

theorem rsplitOnceDot_none {c : List Char} (h : '.' ∉ c) : rsplitOnceDot c = none := by
  induction c with
  | nil => rfl
  | cons a t ih =>
    rw [rsplitOnceDot, ih (fun hc => h (by simp [hc])),
      if_neg (by intro hc; exact h (by simp [hc]))]

theorem rsplitOnceDot_last {s e : List Char} (h : '.' ∉ e) :
    rsplitOnceDot (s ++ '.' :: e) = some (s, e) := by
  induction s with
  | nil =>
    rw [List.nil_append, rsplitOnceDot, rsplitOnceDot_none h, if_pos rfl]
  | cons a t ih =>
    rw [List.cons_append, rsplitOnceDot, ih]
/-! ## The claims -/

/-- Helper for the uniform-path witnesses: a replicated singleton component
list is non-empty. -/
theorem replicate_single_ne_nil {n : Nat} (h : 0 < n) :
    List.replicate n (['a'] : List Char) ≠ [] := by
  intro hcon
  have hlen := congrArg List.length hcon
  rw [List.length_replicate, List.length_nil] at hlen
  omega

/-- Claim C1, refuted as stated: an interior current-directory component is
silently dropped, not rejected. `FilePath::new "foo/./bar"` succeeds, and
`FilePathBuf::new` canonicalizes it to `"foo/bar"`. -/
theorem C1_counterexample :
    FilePath.new ("foo/./bar").toList = .ok ("foo/./bar").toList ∧
    FilePathBuf.new ("foo/./bar").toList = .ok ("foo/bar").toList := by
  exact ⟨by decide, by decide⟩

/-- Claim C1 (amended): only a leading current-directory component is
rejected: whenever std-style component parsing yields `CurDir` first (the
input starts with `./` or `.\`), `iterate_path` fails with
`CurrentDirectory` carrying the empty (no components seen yet) context; an
interior `.` piece never reaches the iterator as a component and is
silently dropped, as witnessed by `FilePathBuf::new "foo/./bar" = Ok
"foo/bar"`. -/
theorem C1_curdir_only_leading (s : List Char)
    (h : (pathComponents s).head? = some .curDir) :
    iterate_path s = .error (.CurrentDirectory []) := by
  cases hp : pathComponents s with
  | nil => rw [hp] at h; exact absurd h (by simp)
  | cons a t =>
    rw [hp] at h
    simp only [List.head?_cons, Option.some.injEq] at h
    subst h
    unfold iterate_path
    rw [hp]
    rfl

/-- Witness for C1 (amended): the theorem applied to the input `"./foo"`. -/
theorem C1_curdir_witness :
    iterate_path ("./foo").toList = .error (.CurrentDirectory []) :=
  C1_curdir_only_leading (("./foo").toList) (by decide)

/-- Claim C2, refuted as stated: `COM0` and `LPT0` are not reserved — the
digit states of the automaton accept only `'1'..='9'` — so `COM0` / `LPT0`,
alone or with an extension, validate successfully and are accepted as
paths. -/
theorem C2_counterexample :
    validate_normal_path_component ("COM0").toList [] = .ok () ∧
    validate_normal_path_component ("LPT0").toList [] = .ok () ∧
    validate_normal_path_component ("COM0.txt").toList [] = .ok () ∧
    validate_normal_path_component ("lpt0.txt").toList [] = .ok () ∧
    FilePath.new ("LPT0").toList = .ok ("LPT0").toList := by
  exact ⟨by decide, by decide, by decide, by decide, by decide⟩

/-- Claim C2 (amended): the digit families of the reserved set are
`COM1`–`COM9` and `LPT1`–`LPT9`: for every digit `d` with `'1' ≤ d ≤ '9'`
the components `COM<d>` and `LPT<d>` are rejected with `ReservedName`
(with the supplied location context), while `COM0` and `LPT0` are
accepted. -/
theorem C2_digit_families (d : Char) (ctx : List PathComp)
    (hd1 : '1' ≤ d) (hd2 : d ≤ '9') :
    validate_normal_path_component ['C', 'O', 'M', d] ctx = .error (.ReservedName ctx) ∧
    validate_normal_path_component ['L', 'P', 'T', d] ctx = .error (.ReservedName ctx) ∧
    validate_normal_path_component ("COM0").toList ctx = .ok () ∧
    validate_normal_path_component ("LPT0").toList ctx = .ok () := by
  have hdn1 : 49 ≤ d.toNat := by
    have h := char_le_iff_toNat.mp hd1
    rw [show ('1' : Char).toNat = 49 from rfl] at h
    exact h
  have hdn2 : d.toNat ≤ 57 := by
    have h := char_le_iff_toNat.mp hd2
    rw [show ('9' : Char).toNat = 57 from rfl] at h
    exact h
  have hld : toAsciiLower d = d := toAsciiLower_eq_self (by omega)
  have hud : utf8Size d = 1 := by unfold utf8Size; rw [if_pos (by omega)]
  have hinv : isInvalidChar d = false := by
    rw [Bool.eq_false_iff]
    intro hbad
    rcases Bool.or_eq_true_iff.mp hbad with hc | hm
    · rcases Bool.or_eq_true_iff.mp hc with hc1 | hc2
      · have := of_decide_eq_true hc1; omega
      · have := of_decide_eq_true hc2; omega
    · have hmem : d ∈ invalid_characters := by simpa using hm
      simp only [invalid_characters, List.mem_cons, List.not_mem_nil, or_false] at hmem
      rcases hmem with rfl | rfl | rfl | rfl | rfl | rfl | rfl | rfl | rfl <;>
        first
          | exact absurd hdn1 (by decide)
          | exact absurd hdn2 (by decide)
  have hcom : split_at_reserved_name ['C', 'O', 'M', d] = some ([], []) := by
    have h := @saGo_run_com ['C', 'O', 'M', d] [] 0 'C' 'O' 'M' d
      (by decide) (by decide) (by decide) (by rw [hld]; exact hd1) (by rw [hld]; exact hd2)
    unfold split_at_reserved_name
    simpa using h
  have hlpt : split_at_reserved_name ['L', 'P', 'T', d] = some ([], []) := by
    have h := @saGo_run_lpt ['L', 'P', 'T', d] [] 0 'L' 'P' 'T' d
      (by decide) (by decide) (by decide) (by rw [hld]; exact hd1) (by rw [hld]; exact hd2)
    unfold split_at_reserved_name
    simpa using h
  have hhitC : reservedHit ['C', 'O', 'M', d] = true := by
    unfold reservedHit
    rw [hcom]
    decide
  have hhitL : reservedHit ['L', 'P', 'T', d] = true := by
    unfold reservedHit
    rw [hlpt]
    decide
  have hbC : byteLen ['C', 'O', 'M', d] = 4 := by
    show utf8Size 'C' + (utf8Size 'O' + (utf8Size 'M' + (utf8Size d + 0))) = 4
    rw [hud]
    decide
  have hbL : byteLen ['L', 'P', 'T', d] = 4 := by
    show utf8Size 'L' + (utf8Size 'P' + (utf8Size 'T' + (utf8Size d + 0))) = 4
    rw [hud]
    decide
  have hlastC : (['C', 'O', 'M', d] : List Char).getLast? = some d := rfl
  have hlastL : (['L', 'P', 'T', d] : List Char).getLast? = some d := rfl
  have hnotdot : ∀ ch : Char, ch.toNat ∉ ({46, 32} : Set Nat) → ∀ w : Char,
      some ch ≠ some w → True := fun _ _ _ _ => trivial
  refine ⟨?_, ?_, @validate_ok_ctx (("COM0").toList) [] ctx (by decide),
    @validate_ok_ctx (("LPT0").toList) [] ctx (by decide)⟩
  · refine validate_eval_reserved (by rw [hbC]; decide) ?_ ?_ ?_ hhitC
    · rw [hlastC]
      intro hcon
      injection hcon with hcon
      rw [char_eq_iff_toNat, show ('.' : Char).toNat = 46 from rfl] at hcon
      omega
    · rw [hlastC]
      intro hcon
      injection hcon with hcon
      rw [char_eq_iff_toNat, show (' ' : Char).toNat = 32 from rfl] at hcon
      omega
    · rw [List.find?_cons_of_neg _ (by decide), List.find?_cons_of_neg _ (by decide),
        List.find?_cons_of_neg _ (by decide), List.find?_cons_of_neg _ (by simp [hinv]),
        List.find?_nil]
  · refine validate_eval_reserved (by rw [hbL]; decide) ?_ ?_ ?_ hhitL
    · rw [hlastL]
      intro hcon
      injection hcon with hcon
      rw [char_eq_iff_toNat, show ('.' : Char).toNat = 46 from rfl] at hcon
      omega
    · rw [hlastL]
      intro hcon
      injection hcon with hcon
      rw [char_eq_iff_toNat, show (' ' : Char).toNat = 32 from rfl] at hcon
      omega
    · rw [List.find?_cons_of_neg _ (by decide), List.find?_cons_of_neg _ (by decide),
        List.find?_cons_of_neg _ (by decide), List.find?_cons_of_neg _ (by simp [hinv]),
        List.find?_nil]

/-- Witness for C2 (amended): the theorem applied at `d = '7'`. -/
theorem C2_digit_families_witness :
    validate_normal_path_component ['C', 'O', 'M', '7'] [] = .error (.ReservedName []) ∧
    validate_normal_path_component ("LPT0").toList [] = .ok () :=
  ⟨(C2_digit_families '7' [] (by decide) (by decide)).1,
   (C2_digit_families '7' [] (by decide) (by decide)).2.2.2⟩

/-- Claim C3: reserved-name boundary behaviour of component validation:
`"NUL"`, `"nul"`, `"NUL.txt"` and `"  AUX"` are rejected with
`ReservedName`; `"NULL"`, `"AUXILIARY"`, `".NUL"`, `"fooNUL"` and
`"CONIN"` are accepted. -/
theorem C3_reserved_boundary :
    validate_normal_path_component ("NUL").toList [] = .error (.ReservedName []) ∧
    validate_normal_path_component ("nul").toList [] = .error (.ReservedName []) ∧
    validate_normal_path_component ("NUL.txt").toList [] = .error (.ReservedName []) ∧
    validate_normal_path_component ("  AUX").toList [] = .error (.ReservedName []) ∧
    validate_normal_path_component ("NULL").toList [] = .ok () ∧
    validate_normal_path_component ("AUXILIARY").toList [] = .ok () ∧
    validate_normal_path_component (".NUL").toList [] = .ok () ∧
    validate_normal_path_component ("fooNUL").toList [] = .ok () ∧
    validate_normal_path_component ("CONIN").toList [] = .ok () := by
  exact ⟨by decide, by decide, by decide, by decide, by decide, by decide, by decide,
    by decide, by decide⟩

/-- Claim C4, refuted as stated: the automaton is not equivalent to the
naive reference search on all UTF-8 components. A non-ASCII character
resets the automaton without triggering the retroactive `CON` finish, so
the component `CON missing-`U+00A0` (no-break space, a Rust whitespace
character) passes validation even though the naive search finds a
qualifying occurrence of `CON` (left context empty, right context trims to
empty). -/
theorem C4_counterexample :
    byteLen ['C', 'O', 'N', Char.ofNat 0xA0] ≤ MAX_COMPONENT_LEN ∧
    (['C', 'O', 'N', Char.ofNat 0xA0] : List Char).getLast? ≠ some '.' ∧
    (['C', 'O', 'N', Char.ofNat 0xA0] : List Char).getLast? ≠ some ' ' ∧
    (['C', 'O', 'N', Char.ofNat 0xA0] : List Char).find? isInvalidChar = none ∧
    validate_normal_path_component ['C', 'O', 'N', Char.ofNat 0xA0] [] = .ok () ∧
    hasQualReserved ['C', 'O', 'N', Char.ofNat 0xA0] = true := by
  exact ⟨by decide, by decide, by decide, by decide, by decide, by decide⟩

/-- Claim C4 (amended): for all-ASCII components that pass the earlier
checks (byte length ≤ 255, last character neither `.` nor space, no
invalid character), the automaton agrees exactly with the naive reference
search: validation returns `ReservedName` iff some occurrence of a
reserved name ASCII-case-insensitively appears with trimmed-empty left
context and trimmed-empty-or-dot-leading right context. -/
theorem C4_ascii_equivalence (comp : List Char) (ctx : List PathComp)
    (hascii : ∀ ch ∈ comp, isAsciiChar ch = true)
    (h1 : byteLen comp ≤ MAX_COMPONENT_LEN)
    (h2 : comp.getLast? ≠ some '.') (h3 : comp.getLast? ≠ some ' ')
    (h4 : comp.find? isInvalidChar = none) :
    validate_normal_path_component comp ctx = .error (.ReservedName ctx) ↔
      hasQualReserved comp = true := by
  constructor
  · intro h
    by_cases hh : reservedHit comp = true
    · exact reservedHit_imp_hasQual hh
    · rw [validate_eval_ok h1 h2 h3 h4 (by simpa using hh)] at h
      exact absurd h (by simp)
  · intro hq
    exact validate_eval_reserved h1 h2 h3 h4 (hasQual_imp_reservedHit hascii hq)

/-- Witness for C4 (amended): the equivalence applied to `"CON.txt"`. -/
theorem C4_ascii_equivalence_witness :
    validate_normal_path_component ("CON.txt").toList [] = .error (.ReservedName []) :=
  (C4_ascii_equivalence (("CON.txt").toList) [] (by decide) (by decide) (by decide)
    (by decide) (by decide)).mpr (by decide)

/-- Claim C5: the validator checks its predicates in a fixed priority
order — too long, then ends with `.`, then ends with space, then first
invalid character, then reserved name — and returns the first applicable
error; in particular `"NUL."` yields `ComponentEndsWithAPeriod` and
`"LPT7 "` yields `ComponentEndsWithASpace`, not `ReservedName`. -/
theorem C5_priority_order (c : List Char) (ctx : List PathComp) :
    (byteLen c > MAX_COMPONENT_LEN →
      validate_normal_path_component c ctx = .error (.ComponentTooLong ctx (byteLen c))) ∧
    (byteLen c ≤ MAX_COMPONENT_LEN → c.getLast? = some '.' →
      validate_normal_path_component c ctx = .error (.ComponentEndsWithAPeriod ctx)) ∧
    (byteLen c ≤ MAX_COMPONENT_LEN → c.getLast? ≠ some '.' → c.getLast? = some ' ' →
      validate_normal_path_component c ctx = .error (.ComponentEndsWithASpace ctx)) ∧
    (∀ ch : Char, byteLen c ≤ MAX_COMPONENT_LEN → c.getLast? ≠ some '.' →
      c.getLast? ≠ some ' ' → c.find? isInvalidChar = some ch →
      validate_normal_path_component c ctx = .error (.InvalidCharacter ctx ch)) ∧
    (byteLen c ≤ MAX_COMPONENT_LEN → c.getLast? ≠ some '.' → c.getLast? ≠ some ' ' →
      c.find? isInvalidChar = none → reservedHit c = true →
      validate_normal_path_component c ctx = .error (.ReservedName ctx)) ∧
    validate_normal_path_component ("NUL.").toList ctx
      = .error (.ComponentEndsWithAPeriod ctx) ∧
    validate_normal_path_component ("LPT7 ").toList ctx
      = .error (.ComponentEndsWithASpace ctx) := by
  exact ⟨validate_eval_too_long, validate_eval_period, validate_eval_space,
    fun ch => validate_eval_invalid, validate_eval_reserved,
    validate_eval_period (by decide) (by decide),
    validate_eval_space (by decide) (by decide) (by decide)⟩

/-- Witness for C5: the period-priority conjunct applied to `"NUL."`. -/
theorem C5_priority_witness :
    validate_normal_path_component ("NUL.").toList []
      = .error (.ComponentEndsWithAPeriod []) :=
  (C5_priority_order (("NUL.").toList) []).2.1 (by decide) (by decide)

set_option maxRecDepth 4000 in
/-- Claim C6: exact length boundaries: a component of exactly 255 bytes is
accepted and one of 256 bytes is rejected with `ComponentTooLong` carrying
the exact byte length; a path whose canonical length equals
`MAX_PATH_LEN` is accepted, and one whose canonical length exceeds it is
rejected with `PathTooLong` carrying the exact computed length. -/
theorem C6_length_boundaries (ctx : List PathComp) (cs : List (List Char)) (hne : cs ≠ [])
    (hv : ∀ c ∈ cs, c ≠ [] ∧ validate_normal_path_component c [] = .ok ()) :
    validate_normal_path_component (List.replicate MAX_COMPONENT_LEN 'a') ctx = .ok () ∧
    validate_normal_path_component (List.replicate (MAX_COMPONENT_LEN + 1) 'a') ctx =
      .error (.ComponentTooLong ctx (MAX_COMPONENT_LEN + 1)) ∧
    (canonLen cs = MAX_PATH_LEN → iterate_path (joinSep cs) = .ok true) ∧
    (canonLen cs > MAX_PATH_LEN →
      iterate_path (joinSep cs) = .error (.PathTooLong (canonLen cs))) := by
  have hbl : ∀ n : Nat, byteLen (List.replicate n 'a') = n := by
    intro n
    rw [byteLen, List.map_replicate, show utf8Size 'a' = 1 from rfl, List.sum_replicate,
      smul_eq_mul, Nat.mul_one]
  refine ⟨@validate_ok_ctx (List.replicate MAX_COMPONENT_LEN 'a') [] ctx (by decide), ?_,
    fun h => iterate_path_join_ok hne hv (by omega),
    fun h => iterate_path_join_too_long hne hv h⟩
  have h : validate_normal_path_component (List.replicate (MAX_COMPONENT_LEN + 1) 'a') ctx
      = .error (.ComponentTooLong ctx (byteLen (List.replicate (MAX_COMPONENT_LEN + 1) 'a'))) :=
    validate_eval_too_long (by rw [hbl]; decide)
  rw [hbl] at h
  exact h

/-- Witness for C6: the boundary theorem applied at the exact maximal and
first over-maximal uniform paths (32768 / 32769 one-byte components). -/
theorem C6_length_witness :
    validate_normal_path_component (List.replicate MAX_COMPONENT_LEN 'a') [] = .ok () ∧
    iterate_path (joinSep (List.replicate 32768 (['a'] : List Char))) = .ok true ∧
    iterate_path (joinSep (List.replicate 32769 (['a'] : List Char))) =
      .error (.PathTooLong 65537) := by
  have h1 := C6_length_boundaries [] (List.replicate 32768 (['a'] : List Char))
    (replicate_single_ne_nil (by omega))
    (fun c hc => by rw [List.eq_of_mem_replicate hc]; exact ⟨by decide, by decide⟩)
  have h2 := C6_length_boundaries [] (List.replicate 32769 (['a'] : List Char))
    (replicate_single_ne_nil (by omega))
    (fun c hc => by rw [List.eq_of_mem_replicate hc]; exact ⟨by decide, by decide⟩)
  refine ⟨h1.1, h1.2.2.1 ?_, ?_⟩
  · rw [canonLen_replicate_single (by omega)]
    decide
  · have h3 := h2.2.2.2 (by rw [canonLen_replicate_single (by omega)]; decide)
    rw [canonLen_replicate_single (by omega)] at h3
    exact h3

/-- Claim C7: canonicalization is idempotent and round-trips: splitting
the canonical join of valid components on `/` reproduces exactly the
component sequence, building a `FilePathBuf` from the canonical string is
the identity on it, `ToOwned` re-joins to the byte-identical string, and
every `FilePathBuf::new` output is a fixed point of `FilePathBuf::new`. -/
theorem C7_canonical_roundtrip (cs : List (List Char)) (hne : cs ≠ [])
    (hv : ∀ c ∈ cs, c ≠ [] ∧ validate_normal_path_component c [] = .ok ())
    (hlen : canonLen cs ≤ MAX_PATH_LEN) :
    bufIterComponents (joinSep cs) = cs ∧
    FilePathBuf.new (joinSep cs) = .ok (joinSep cs) ∧
    FilePath.to_owned (joinSep cs) = joinSep cs ∧
    (∀ s p : List Char, FilePathBuf.new s = .ok p → FilePathBuf.new p = .ok p) := by
  have hparse := pathComponents_join hne (fun c hc => (hv c hc).1)
    (fun c hc => validate_ok_not_sep (hv c hc).2)
    (fun c hc => validate_ok_no_colon (hv c hc).2)
    (fun c hc => validate_ok_ne_dots (hv c hc).2)
  have hnorm := pathNormalComponents_of_parse hparse
  refine ⟨bufIter_join hne (fun c hc => (hv c hc).1)
      (fun c hc => validate_ok_no_slash (hv c hc).2),
    FilePathBuf_new_join hne hv hlen, ?_, ?_⟩
  · unfold FilePath.to_owned
    rw [hnorm]
    exact appendAll_nil_eq_join (fun c hc => (hv c hc).1)
  · intro s p h
    obtain ⟨ds, hdne, hdv, hdlen, hp, _⟩ := FilePathBuf_new_inv h
    rw [hp]
    exact FilePathBuf_new_join hdne hdv hdlen

/-- Witness for C7: the round-trip theorem applied to `["foo",
"bar.txt"]`, whose join is the canonical string `"foo/bar.txt"`. -/
theorem C7_canonical_roundtrip_witness :
    bufIterComponents (joinSep [("foo").toList, ("bar.txt").toList])
      = [("foo").toList, ("bar.txt").toList] ∧
    FilePathBuf.new (joinSep [("foo").toList, ("bar.txt").toList])
      = .ok (joinSep [("foo").toList, ("bar.txt").toList]) := by
  have h := C7_canonical_roundtrip [("foo").toList, ("bar.txt").toList]
    (by decide) (by decide) (by decide)
  exact ⟨h.1, h.2.1⟩

/-- Claim C8: equality and hashing of file paths are componentwise: two
paths are equal iff their component sequences are equal (compared from the
last component backward, which is equivalent to plain sequence equality),
equality implies equal hash input streams (hence equal hashes for every
hash function of the written chunks), and the mixed-separator input
canonicalizes to a value equal, and hashing equal, to that of
`"foo/bar/Baz/BILL"`. -/
theorem C8_componentwise_eq_hash :
    (∀ a b : List Char, FilePath.beq a b = true ↔
      pathNormalComponents a = pathNormalComponents b) ∧
    (∀ (a b : List Char) (f : List (List Char) → Nat), FilePath.beq a b = true →
      f (FilePath.hashWrites a) = f (FilePath.hashWrites b)) ∧
    FilePath.new ("foo/./bar//Baz\\BILL\\").toList
      = .ok (("foo/./bar//Baz\\BILL\\").toList) ∧
    FilePath.beq (("foo/./bar//Baz\\BILL\\").toList) (("foo/bar/Baz/BILL").toList)
      = true ∧
    FilePath.hashWrites (("foo/./bar//Baz\\BILL\\").toList)
      = FilePath.hashWrites (("foo/bar/Baz/BILL").toList) := by
  have hbeq : ∀ a b : List Char, FilePath.beq a b = true ↔
      pathNormalComponents a = pathNormalComponents b := by
    intro a b
    unfold FilePath.beq
    rw [beq_iff_eq, List.reverse_inj]
  refine ⟨hbeq, ?_, by decide, by decide, by decide⟩
  intro a b f h
  unfold FilePath.hashWrites
  rw [(hbeq a b).mp h]

/-- Witness for C8: the hash-coherence conjunct applied to the equal paths
`"a/b"` and `"a//b"` with the chunk-count function. -/
theorem C8_componentwise_witness :
    (fun l => l.length) (FilePath.hashWrites (("a/b").toList))
      = (fun l => l.length) (FilePath.hashWrites (("a//b").toList)) :=
  C8_componentwise_eq_hash.2.1 (("a/b").toList) (("a//b").toList)
    (fun l => l.length) (by decide)

/-- Claim C9: stem/extension splitting law: `file_stem_and_extension`
splits on the last `.`: a component without `.` yields `none`; if the
component is `s ++ "." ++ e` with `e` non-empty and dot-free, the result
is the pair (`none` if `s` is empty else `some s`, `e`); in particular
`".txt"` yields `(none, "txt")`, `"foo.bar.txt"` yields
`(some "foo.bar", "txt")` and `"foo"` yields `none`. -/
theorem C9_stem_extension_law (c : List Char) :
    ('.' ∉ c → file_stem_and_extension c = none) ∧
    (∀ s e : List Char, c = s ++ '.' :: e → '.' ∉ e → e ≠ [] →
      file_stem_and_extension c = some ((if s = [] then none else some s), e)) ∧
    file_stem_and_extension (".txt").toList = some (none, ("txt").toList) ∧
    file_stem_and_extension ("foo.bar.txt").toList
      = some (some ("foo.bar").toList, ("txt").toList) ∧
    file_stem_and_extension ("foo").toList = none := by
  refine ⟨?_, ?_, by decide, by decide, by decide⟩
  · intro h
    unfold file_stem_and_extension
    rw [rsplitOnceDot_none h]
  · intro s e hc hde hene
    unfold file_stem_and_extension
    rw [hc, rsplitOnceDot_last hde]
    show (if e = [] then none else some ((if s = [] then none else some s), e)) = _
    rw [if_neg hene]

/-- Witness for C9: the last-dot conjunct applied to `"a.b"`. -/
theorem C9_stem_extension_witness :
    file_stem_and_extension (("a.b").toList) = some (some ("a").toList, ("b").toList) := by
  have h := (C9_stem_extension_law (("a.b").toList)).2.1 (("a").toList) (("b").toList)
    (by decide) (by decide) (by decide)
  rw [if_neg (by decide)] at h
  exact h

/-- Claim C10, refuted as stated: a valid canonical path can have 32768 =
`MAX_NUM_COMPONENTS + 1` components: 32768 one-byte components have
canonical length exactly 2 * 32768 - 1 = 65535 = `MAX_PATH_LEN` and the
path is accepted. -/
theorem C10_counterexample :
    iterate_path (joinSep (List.replicate 32768 (['a'] : List Char))) = .ok true ∧
    (List.replicate 32768 (['a'] : List Char)).length = MAX_NUM_COMPONENTS + 1 := by
  constructor
  · refine iterate_path_join_ok (replicate_single_ne_nil (by omega))
      (fun c hc => by rw [List.eq_of_mem_replicate hc]; exact ⟨by decide, by decide⟩) ?_
    rw [canonLen_replicate_single (by omega)]
    decide
  · rw [List.length_replicate]
    decide

/-- Claim C10 (amended): every sequence of non-empty components whose
canonical length is at most `MAX_PATH_LEN` has at most
`MAX_NUM_COMPONENTS + 1 = 32768` components (each component past the
first contributes at least 2 bytes, the first at least 1). -/
theorem C10_component_bound (cs : List (List Char)) (h : ∀ c ∈ cs, c ≠ [])
    (hlen : canonLen cs ≤ MAX_PATH_LEN) :
    cs.length ≤ MAX_NUM_COMPONENTS + 1 := by
  cases cs with
  | nil => exact Nat.zero_le _
  | cons c cs2 =>
    rw [canonLen_cons cs2 (h c (by simp))] at hlen
    have hb := byteLen_pos (h c (by simp))
    have hsum : 2 * cs2.length ≤ (cs2.map fun d => 1 + byteLen d).sum :=
      sum_ge_two_mul (fun x hx => h x (List.mem_cons_of_mem c hx))
    have hM : MAX_NUM_COMPONENTS = 32767 := rfl
    have hP : MAX_PATH_LEN = 65535 := rfl
    rw [List.length_cons]
    omega

/-- Witness for C10 (amended): the bound applied to `["a", "b"]`. -/
theorem C10_component_witness :
    ([['a'], ['b']] : List (List Char)).length ≤ MAX_NUM_COMPONENTS + 1 :=
  C10_component_bound [['a'], ['b']] (by decide) (by decide)

end Minifilepath
